import Mathlib

set_option linter.unusedSectionVars false

/-!
Verification of the AC-3 + backtracking CSP solver (`sudoku_ac3.py`).

The Python program is shallowly embedded below.  The class `CSP` becomes a
structure with three fields (`variables`, `domains`, `neighbors`): the source
constructor takes exactly those three arguments and stores no constraint
predicate; the binary constraint `y != x` is hardcoded inside `Revise`.
Python dictionaries keyed by variables are modelled as total functions
(every `CSP` dict the program builds has exactly the `variables` as keys);
Python sets of values become `Finset`s; the in-place mutation `csp.domains[xi]
-= to_remove` becomes a functional `Function.update`.

The AC-3 worklist loop is not structurally recursive, so it is embedded with
an explicit fuel parameter (`ac3Run`) plus a proved sufficient fuel bound
(`ac3Bound`); termination of the Python loop is the theorem that this fuel is
never exhausted.  Python iterates over `set` objects in an unspecified order,
and the `deque` pop order is what the spec calls "not semantically
significant"; the loop is therefore parameterised by an arc-selection
function `pick` and an initial-queue builder, with the concrete program's
FIFO order (`fun _ => 0` and `initQueue`, which sorts each neighbor set)
as the default instance.
-/

section CSPModel

variable {V Val : Type} [LinearOrder V] [LinearOrder Val]

/-- Ascending enumeration of a finite set (insertion sort, so that concrete
instances evaluate inside the kernel).  This fixes the order in which the
program iterates over Python `set` objects — an order the spec declares
semantically insignificant, which the order-independence theorems below
confirm. -/
def finsetAsc {α : Type} [LinearOrder α] (s : Finset α) : List α :=
  Quot.liftOn s.val (fun l => l.insertionSort (· ≤ ·)) fun _ _ h =>
    List.eq_of_perm_of_sorted
      ((List.perm_insertionSort _ _).trans (h.trans (List.perm_insertionSort _ _).symm))
      (List.sorted_insertionSort _ _) (List.sorted_insertionSort _ _)

/-- The `CSP` class of the source: `__init__(self, variables, domains, neighbors)`.
No constraint predicate is stored. -/
structure CSP (V Val : Type) where
  «variables» : List V
  domains : V → Finset Val
  neighbors : V → Finset V

/-- The set `to_remove` computed by `Revise`: all `x` in `Di` such that
`not any(y != x for y in csp.domains[xj])`. -/
def to_remove (csp : CSP V Val) (xi xj : V) : Finset Val :=
  (csp.domains xi).filter (fun x => ¬ ∃ y ∈ csp.domains xj, y ≠ x)

/-- The function `Revise(csp, xi, xj)` from the source: removes `to_remove` from `Di` and
reports whether anything was removed.  The constraint `y != x` is hardcoded. -/
def Revise (csp : CSP V Val) (xi xj : V) : Bool × CSP V Val :=
  if to_remove csp xi xj = ∅ then (false, csp)
  else (true, { csp with
                domains := Function.update csp.domains xi
                  (csp.domains xi \ to_remove csp xi xj) })

/-- The arcs appended after a successful revision of `xi` against `xj`:
`(xk, xi)` for every neighbor `xk` of `xi` other than `xj`.  (The Python
`set` iteration order is unspecified; we enumerate it sorted.) -/
def enqueueArcs (csp : CSP V Val) (xi xj : V) : List (V × V) :=
  (finsetAsc ((csp.neighbors xi).erase xj)).map (fun xk => (xk, xi))

/-- Selection of the arc to pop: index `pick q` (normalised mod the length)
into the current queue.  The concrete program pops the head (`pick = fun _ => 0`,
FIFO); any other selection represents a different processing order. -/
def popArc (pick : List (V × V) → Nat) (a : V × V) (q : List (V × V)) :
    (V × V) × List (V × V) :=
  ((a :: q).getD (pick (a :: q) % (a :: q).length) a,
   (a :: q).eraseIdx (pick (a :: q) % (a :: q).length))

/-- The `while queue:` loop of `AC3`, with explicit fuel.  One unit of fuel is
spent per iteration; `none` means the fuel ran out (proved unreachable for
`ac3Bound` fuel on well-formed models). -/
def ac3Run (pick : List (V × V) → Nat) :
    Nat → CSP V Val → List (V × V) → Option (Bool × CSP V Val)
  | 0, _, _ => none
  | _ + 1, csp, [] => some (true, csp)
  | fuel + 1, csp, a :: q =>
      let p := popArc pick a q
      let r := Revise csp p.1.1 p.1.2
      if r.1 then
        if r.2.domains p.1.1 = ∅ then some (false, r.2)
        else ac3Run pick fuel r.2 (p.2 ++ enqueueArcs r.2 p.1.1 p.1.2)
      else ac3Run pick fuel csp p.2

/-- The initial queue of `AC3`: every directed arc `(xi, xj)` with `xi` a model
variable and `xj` one of its neighbors. -/
def initQueue (csp : CSP V Val) : List (V × V) :=
  csp.variables.flatMap (fun xi =>
    (finsetAsc (csp.neighbors xi)).map (fun xj => (xi, xj)))

/-- The largest neighbor-set size over the model's variables (bounds how many
arcs one revision can re-enqueue). -/
def maxDeg (csp : CSP V Val) : Nat :=
  (csp.variables.map (fun v => (csp.neighbors v).card)).foldr max 0

/-- Total number of values remaining over all the model's variables. -/
def totalSize (csp : CSP V Val) : Nat :=
  ∑ v ∈ csp.variables.toFinset, (csp.domains v).card

/-- Sufficient fuel for the AC-3 loop started on queue `q`. -/
def ac3Bound (csp : CSP V Val) (q : List (V × V)) : Nat :=
  (maxDeg csp + 1) * totalSize csp + q.length + 1

/-- The `AC3` loop with an explicit initial-queue builder and arc-selection function. -/
def AC3With (iq : CSP V Val → List (V × V)) (pick : List (V × V) → Nat)
    (csp : CSP V Val) : Bool × CSP V Val :=
  (ac3Run pick (ac3Bound csp (iq csp)) csp (iq csp)).getD (false, csp)

/-- The function `AC3(csp)` from the source: full initial queue, FIFO processing.
Returns the consistency flag and the revised model. -/
def AC3 (csp : CSP V Val) : Bool × CSP V Val :=
  AC3With initQueue (fun _ => 0) csp

/-- The function `is_solved(csp)`: every variable's domain is a singleton.  (The source
iterates over `csp.domains.values()`; the dicts the program builds have
exactly the model variables as keys.) -/
def is_solved (csp : CSP V Val) : Bool :=
  csp.variables.all (fun v => (csp.domains v).card == 1)

/-- The `min(unassigned, key=..., default=None)` call: Python's `min` returns
the first element attaining the minimal key. -/
def minBySize (csp : CSP V Val) : List V → Option V
  | [] => none
  | v :: vs =>
      match minBySize csp vs with
      | none => some v
      | some w =>
          if (csp.domains w).card < (csp.domains v).card then some w else some v

/-- The function `select_unassigned_variable(csp)`: MRV over the variables whose domain has
more than one value, ties broken by first position in `csp.variables`. -/
def select_unassigned_variable (csp : CSP V Val) : Option V :=
  minBySize csp (csp.variables.filter (fun v => 1 < (csp.domains v).card))

/-- The call `copy.deepcopy(csp)`: the identity in this value-semantics embedding (the
aliasing behaviour is modelled separately by the store embedding below). -/
def deepcopy (csp : CSP V Val) : CSP V Val := csp

/-- The assignment `new_csp.domains[var] = set(value)`: collapse `var`'s domain to the single
trial value. -/
def collapse (csp : CSP V Val) (var : V) (val : Val) : CSP V Val :=
  { csp with domains := Function.update csp.domains var {val} }

/-- The `for value in sorted(csp.domains[var]):` loop of `backtrack`: try each
value in ascending order; on a consistent propagation recurse via `next`,
returning the first success. -/
def tryValues (ac3fn : CSP V Val → Bool × CSP V Val)
    (next : CSP V Val → Option (CSP V Val))
    (csp : CSP V Val) (var : V) : List Val → Option (CSP V Val)
  | [] => none
  | v :: vs =>
      let r := ac3fn (collapse (deepcopy csp) var v)
      if r.1 then
        match next r.2 with
        | some sol => some sol
        | none => tryValues ac3fn next csp var vs
      else tryValues ac3fn next csp var vs

/-- The function `backtrack(csp)` with explicit AC-3 order parameters and fuel (one unit of
fuel per recursion level; the recursion depth of the Python function is
bounded because each level strictly shrinks the total domain size). -/
def backtrackWith (iq : CSP V Val → List (V × V)) (pick : List (V × V) → Nat) :
    Nat → CSP V Val → Option (CSP V Val)
  | 0, _ => none
  | fuel + 1, csp =>
      if is_solved csp then some csp
      else
        match select_unassigned_variable csp with
        | none => none
        | some var =>
            tryValues (AC3With iq pick) (backtrackWith iq pick fuel) csp var
              (finsetAsc (csp.domains var))

/-- The function `backtrack(csp)` from the source (default FIFO order, sufficient fuel). -/
def backtrack (csp : CSP V Val) : Option (CSP V Val) :=
  backtrackWith initQueue (fun _ => 0) (totalSize csp + 1) csp

/-- The four observable outcomes of `main`: AC-3 inconsistent at the root (the
"no solution" message printed *before* any search), solved by AC-3 alone,
solved by backtracking, or search exhausted. -/
inductive MainOutcome (V Val : Type) where
  | unsatNoSearch : MainOutcome V Val
  | solvedByAC3 : CSP V Val → MainOutcome V Val
  | solvedBySearch : CSP V Val → MainOutcome V Val
  | unsatAfterSearch : MainOutcome V Val

/-- The solve pipeline of `main(file_path)` after parsing, with explicit AC-3
order parameters: run AC-3 once; if inconsistent report no solution without
searching; if solved print; otherwise run `backtrack`. -/
def solveWith (iq : CSP V Val → List (V × V)) (pick : List (V × V) → Nat)
    (csp : CSP V Val) : MainOutcome V Val :=
  let r := AC3With iq pick csp
  if r.1 then
    if is_solved r.2 then .solvedByAC3 r.2
    else
      match backtrackWith iq pick (totalSize r.2 + 1) r.2 with
      | some sol => .solvedBySearch sol
      | none => .unsatAfterSearch
  else .unsatNoSearch

/-- The solve pipeline of `main` exactly as the source runs it (named
`mainSolve` because Lean reserves the top-level name `main`). -/
def mainSolve (csp : CSP V Val) : MainOutcome V Val :=
  solveWith initQueue (fun _ => 0) csp

/-- Modelled from the spec: the spec's `Revise` evaluates a pluggable binary
predicate `satisfies(valueOfXi, valueOfXj)` stored with the model ("the model
must treat this as a pluggable function, not a hardcoded rule").  The source
stores no such predicate, so for comparison the predicate is a parameter here:
`x` is dropped from `Di` when no `y` in `Dj` has `satisfies x y`. -/
def RevisePred (satisfies : Val → Val → Bool) (csp : CSP V Val) (xi xj : V) :
    Bool × CSP V Val :=
  if (csp.domains xi).filter (fun x => ¬ ∃ y ∈ csp.domains xj, satisfies x y = true) = ∅ then
    (false, csp)
  else
    (true, { csp with
             domains := Function.update csp.domains xi
               ((csp.domains xi) \
                 ((csp.domains xi).filter
                   (fun x => ¬ ∃ y ∈ csp.domains xj, satisfies x y = true))) })

end CSPModel

section Predicates

variable {V Val : Type} [LinearOrder V] [LinearOrder Val]

/-- Arc `(xi, xj)` is consistent: every remaining value of `xi` has a
differing support in `xj`'s domain. -/
def arcCons (csp : CSP V Val) (xi xj : V) : Prop :=
  ∀ x ∈ csp.domains xi, ∃ y ∈ csp.domains xj, y ≠ x

/-- The neighbor relation is symmetric. -/
def SymmNeighbors (csp : CSP V Val) : Prop :=
  ∀ a b : V, b ∈ csp.neighbors a → a ∈ csp.neighbors b

/-- Every neighbor of a model variable is a model variable. -/
def NeighborsClosed (csp : CSP V Val) : Prop :=
  ∀ a ∈ csp.variables, ∀ b ∈ csp.neighbors a, b ∈ csp.variables

/-- The whole model is arc-consistent. -/
def AllArcCons (csp : CSP V Val) : Prop :=
  ∀ xi ∈ csp.variables, ∀ xj ∈ csp.neighbors xi, arcCons csp xi xj

/-- Every arc on the queue joins a model variable to one of its neighbors. -/
def QueueWF (csp : CSP V Val) (q : List (V × V)) : Prop :=
  ∀ ab ∈ q, ab.1 ∈ csp.variables ∧ ab.2 ∈ csp.neighbors ab.1

/-- The queue carries every directed arc of the model. -/
def QueueComplete (csp : CSP V Val) (q : List (V × V)) : Prop :=
  ∀ a ∈ csp.variables, ∀ b ∈ csp.neighbors a, (a, b) ∈ q

/-- Predicate: `E` is an arc-consistent family of subdomains of `csp` (the candidates the
greatest arc-consistent fixed point is built from). -/
def ACSub (csp : CSP V Val) (E : V → Finset Val) : Prop :=
  (∀ v, E v ⊆ csp.domains v) ∧
    ∀ a ∈ csp.variables, ∀ b ∈ csp.neighbors a, ∀ x ∈ E a, ∃ y ∈ E b, y ≠ x

end Predicates


section MoreDefs

variable {V Val : Type} [LinearOrder V] [LinearOrder Val]

/-- A family of initial-queue builders that faithfully represents the source's
queue initialisation under some iteration order of the Python sets: the queue
holds exactly (at least, and nothing but) the directed arcs of the model. -/
def ValidIQ (iq : CSP V Val → List (V × V)) : Prop :=
  ∀ csp : CSP V Val, QueueComplete csp (iq csp) ∧ QueueWF csp (iq csp)

/-- A heap of `CSP` objects, modelling Python object identity: an allocation
counter and a map from references (allocation indices) to object values.
This second embedding of `backtrack` makes the source's `copy.deepcopy` and
in-place mutations observable, so that the frame property "the caller's model
is never mutated" is a real statement. -/
structure Store (V Val : Type) where
  next : Nat
  mem : Nat → CSP V Val

/-- The call `copy.deepcopy(csp)`: allocate a fresh object holding the same value and
return its reference. -/
def deepcopyS (σ : Store V Val) (r : Nat) : Store V Val × Nat :=
  ({ next := σ.next + 1, mem := Function.update σ.mem σ.next (σ.mem r) }, σ.next)

/-- The assignment `new_csp.domains[var] = set(value)`: in-place collapse of the object at
`r`. -/
def setDomainS (σ : Store V Val) (r : Nat) (var : V) (val : Val) : Store V Val :=
  { σ with mem := Function.update σ.mem r (collapse (σ.mem r) var val) }

/-- The call `AC3(new_csp)`: mutates (only) the object it is handed and returns the
consistency flag; `revised_csp` is the same reference. -/
def AC3S (σ : Store V Val) (r : Nat) : Bool × Store V Val :=
  ((AC3 (σ.mem r)).1, { σ with mem := Function.update σ.mem r (AC3 (σ.mem r)).2 })

/-- The trial-value loop of `backtrack` over the store: deep-copy, collapse,
propagate, recurse — all on the fresh reference only. -/
def tryValuesS (next : Store V Val → Nat → Store V Val × Option Nat)
    (σ : Store V Val) (r : Nat) (var : V) : List Val → Store V Val × Option Nat
  | [] => (σ, none)
  | v :: vs =>
      let alloc := deepcopyS σ r
      let σc := setDomainS alloc.1 alloc.2 var v
      let run := AC3S σc alloc.2
      if run.1 then
        match next run.2 alloc.2 with
        | (σ4, some sol) => (σ4, some sol)
        | (σ4, none) => tryValuesS next σ4 r var vs
      else tryValuesS next run.2 r var vs

/-- The function `backtrack` over the store (with the same fuel discipline as
`backtrackWith`): returns the possibly-extended store and an optional
reference to the solved object. -/
def backtrackS : Nat → Store V Val → Nat → Store V Val × Option Nat
  | 0, σ, _ => (σ, none)
  | fuel + 1, σ, r =>
      if is_solved (σ.mem r) then (σ, some r)
      else
        match select_unassigned_variable (σ.mem r) with
        | none => (σ, none)
        | some var =>
            tryValuesS (backtrackS fuel) σ r var (finsetAsc ((σ.mem r).domains var))

end MoreDefs

section SudokuParser

/-- Python `s1 in s2` begins-here check: does `hay` start with `needle`? -/
def substr_at : List Char → List Char → Bool
  | [], _ => true
  | _ :: _, [] => false
  | c :: cs, h :: hs => c == h && substr_at cs hs

/-- Python's `needle in hay` for strings: contiguous-substring containment
(the empty string is contained in everything). -/
def substr_in (needle : List Char) : List Char → Bool
  | [] => substr_at needle []
  | h :: hs => substr_at needle (h :: hs) || substr_in needle hs

/-- The set `set('123456789')`. -/
def sudokuDigits : Finset Char := "123456789".toList.toFinset

/-- The 81 cell variables.  The source names them "A1".."I9" (row letter,
column digit); here cell (row `i`, column `j`) is encoded as `9*i + j`. -/
def sudokuVars : List Nat := List.range 81

/-- Row neighbors of a cell: same row, other column. -/
def rowNeighbors (v : Nat) : List Nat :=
  ((List.range 9).map (fun j => 9 * (v / 9) + j)).filter (fun u => u ≠ v)

/-- Column neighbors of a cell. -/
def colNeighbors (v : Nat) : List Nat :=
  ((List.range 9).map (fun i => 9 * i + v % 9)).filter (fun u => u ≠ v)

/-- Box neighbors of a cell: the 3×3 block starting at
(`3*(i/3)`, `3*(j/3)`), minus the cell itself. -/
def boxNeighbors (v : Nat) : List Nat :=
  ((List.range 3).flatMap (fun a => (List.range 3).map (fun b =>
      9 * (3 * (v / 9 / 3) + a) + (3 * (v % 9 / 3) + b)))).filter (fun u => u ≠ v)

/-- The assignment `neighbors[var] = set(row_vars + col_vars + box_vars)`.  The Python dict
has exactly the 81 cells as keys; the totalised function is empty off-domain
(a missing key has no entries). -/
def sudokuNeighbors (v : Nat) : Finset Nat :=
  if v < 81 then (rowNeighbors v ++ colNeighbors v ++ boxNeighbors v).toFinset
  else ∅

/-- The inner token loop of `parse_sudoku` for the line with index `i`:
`val in '123456789'` (Python substring containment!) stores `set(val)` as the
clue domain, `val in '.0'` leaves the full domain, anything else raises. -/
def parseCells (i : Nat) :
    (Nat → Finset Char) → Nat → List String → Except String (Nat → Finset Char)
  | doms, _, [] => .ok doms
  | doms, j, val :: rest =>
      if substr_in val.toList "123456789".toList then
        parseCells i (Function.update doms (9 * i + j) val.toList.toFinset) (j + 1) rest
      else if substr_in val.toList ".0".toList then
        parseCells i doms (j + 1) rest
      else .error ("Invalid character '" ++ val ++ "' in input.")

/-- The `for i, line in enumerate(lines)` loop: each line must split into
exactly 9 tokens. -/
def parseLines : Nat → (Nat → Finset Char) → List (List String) →
    Except String (Nat → Finset Char)
  | _, doms, [] => .ok doms
  | i, doms, parts :: rest =>
      if parts.length ≠ 9 then
        .error ("Line " ++ toString (i + 1) ++ " must have exactly 9 characters.")
      else
        match parseCells i doms 0 parts with
        | .error e => .error e
        | .ok next => parseLines (i + 1) next rest

/-- The function `parse_sudoku(file_path)` from the source.  The file is modelled as the
list of its lines' whitespace-token lists (`f.readlines()` plus
`line.strip().split()` happen upstream of the embedded logic); a raised
`ValueError` is the `.error` case.  Domains start at `set('123456789')`,
clue tokens overwrite them, and the neighbor relation is built from the
row/column/box topology. -/
def parse_sudoku (lines : List (List String)) : Except String (CSP Nat Char) :=
  if lines.length ≠ 9 then .error "Input file must have exactly 9 lines."
  else
    match parseLines 0 (fun _ => sudokuDigits) lines with
    | .error e => .error e
    | .ok doms =>
        .ok { «variables» := sudokuVars, domains := doms,
              neighbors := sudokuNeighbors }

/-- A 9×9 grid whose first cell token is the two-character string "12" — not
a single character, so the spec requires it to be rejected. -/
def badGrid : List (List String) :=
  [["12", ".", ".", ".", ".", ".", ".", ".", "."]] ++
    List.replicate 8 (List.replicate 9 ".")

/-- A 9×9 grid with an invalid single-character token "x". -/
def xGrid : List (List String) :=
  [["x", ".", ".", ".", ".", ".", ".", ".", "."]] ++
    List.replicate 8 (List.replicate 9 ".")

end SudokuParser

section ExampleModels

/-- Two mutually-neighboring variables, both with domain `{0, 1}`: already
arc-consistent, not solved. -/
def toyPair : CSP (Fin 2) (Fin 3) where
  «variables» := [0, 1]
  domains := fun _ => {0, 1}
  neighbors := fun v => if v = 0 then {1} else {0}

/-- Two mutually-neighboring variables with the solved assignment `0`, `1`. -/
def toySolved : CSP (Fin 2) (Fin 3) where
  «variables» := [0, 1]
  domains := fun v => if v = 0 then {0} else {1}
  neighbors := fun v => if v = 0 then {1} else {0}

/-- Two mutually-neighboring variables whose domains are the same singleton
`{1}` — e.g. two identical clues in the same Sudoku row. -/
def toyTwin : CSP (Fin 2) (Fin 3) where
  «variables» := [0, 1]
  domains := fun _ => {1}
  neighbors := fun v => if v = 0 then {1} else {0}

/-- A one-object store holding `toySolved` everywhere. -/
def toyStore : Store (Fin 2) (Fin 3) where
  next := 1
  mem := fun _ => toySolved

end ExampleModels


section BasicLemmas

variable {V Val : Type} [LinearOrder V] [LinearOrder Val]

theorem mem_finsetAsc {α : Type} [LinearOrder α] (s : Finset α) (a : α) :
    a ∈ finsetAsc s ↔ a ∈ s := by
  rcases s with ⟨l, hl⟩
  induction l using Quot.inductionOn
  exact (List.perm_insertionSort _ _).mem_iff

theorem length_finsetAsc {α : Type} [LinearOrder α] (s : Finset α) :
    (finsetAsc s).length = s.card := by
  rcases s with ⟨l, hl⟩
  induction l using Quot.inductionOn
  exact (List.perm_insertionSort _ _).length_eq

theorem mem_to_remove {csp : CSP V Val} {xi xj : V} {x : Val} :
    x ∈ to_remove csp xi xj ↔
      x ∈ csp.domains xi ∧ ¬ ∃ y ∈ csp.domains xj, y ≠ x :=
  Finset.mem_filter

theorem Revise_variables (csp : CSP V Val) (xi xj : V) :
    (Revise csp xi xj).2.variables = csp.variables := by
  unfold Revise; split <;> rfl

theorem Revise_neighbors (csp : CSP V Val) (xi xj : V) :
    (Revise csp xi xj).2.neighbors = csp.neighbors := by
  unfold Revise; split <;> rfl

theorem Revise_domains_subset (csp : CSP V Val) (xi xj : V) (v : V) :
    (Revise csp xi xj).2.domains v ⊆ csp.domains v := by
  unfold Revise; split
  · exact subset_rfl
  · dsimp only
    rcases eq_or_ne v xi with rfl | hv
    · rw [Function.update_same]; exact Finset.sdiff_subset
    · rw [Function.update_noteq hv]

theorem Revise_domains_other {csp : CSP V Val} {xi xj v : V} (hv : v ≠ xi) :
    (Revise csp xi xj).2.domains v = csp.domains v := by
  unfold Revise; split
  · rfl
  · exact Function.update_noteq hv _ _

theorem Revise_not_revised {csp : CSP V Val} {xi xj : V}
    (h : (Revise csp xi xj).1 = false) : (Revise csp xi xj).2 = csp := by
  by_cases hR : to_remove csp xi xj = ∅
  · unfold Revise; rw [if_pos hR]
  · unfold Revise at h; rw [if_neg hR] at h; cases h

theorem Revise_not_revised_arcCons {csp : CSP V Val} {xi xj : V}
    (h : (Revise csp xi xj).1 = false) : arcCons csp xi xj := by
  by_cases hR : to_remove csp xi xj = ∅
  · intro x hx
    have := Finset.filter_eq_empty_iff.mp hR hx
    simpa using this
  · unfold Revise at h; rw [if_neg hR] at h; cases h

theorem Revise_revised {csp : CSP V Val} {xi xj : V}
    (h : (Revise csp xi xj).1 = true) :
    to_remove csp xi xj ≠ ∅ ∧
      (Revise csp xi xj).2.domains xi =
        csp.domains xi \ to_remove csp xi xj := by
  by_cases hR : to_remove csp xi xj = ∅
  · unfold Revise at h; rw [if_pos hR] at h; cases h
  · refine ⟨hR, ?_⟩
    unfold Revise; rw [if_neg hR]
    exact Function.update_same _ _ _

/-- Any member of `Dj` that is still in `Di` gets removed, as soon as anything
at all gets removed: a removed value `w` satisfies `Dj ⊆ {w}`. -/
theorem mem_domain_xj_removed {csp : CSP V Val} {xi xj : V} {u : Val}
    (hR : to_remove csp xi xj ≠ ∅)
    (hu : u ∈ csp.domains xj) (hu' : u ∈ csp.domains xi) :
    u ∈ to_remove csp xi xj := by
  obtain ⟨w, hw⟩ := Finset.nonempty_iff_ne_empty.mpr hR
  obtain ⟨hwDi, hwcond⟩ := mem_to_remove.mp hw
  have huw : u = w := by
    by_contra hne
    exact hwcond ⟨u, hu, hne⟩
  subst huw
  exact mem_to_remove.mpr ⟨hu', hwcond⟩

/-- A revision that removes something but leaves `Di` nonempty cannot be a
self-arc. -/
theorem Revise_revised_ne {csp : CSP V Val} {xi xj : V}
    (h : (Revise csp xi xj).1 = true)
    (hne : (Revise csp xi xj).2.domains xi ≠ ∅) : xi ≠ xj := by
  obtain ⟨hR, hdom⟩ := Revise_revised h
  rintro rfl
  obtain ⟨x, hx⟩ := Finset.nonempty_iff_ne_empty.mpr (hdom ▸ hne)
  obtain ⟨hxDi, hxR⟩ := Finset.mem_sdiff.mp hx
  exact hxR (mem_domain_xj_removed hR hxDi hxDi)

/-- After a successful, non-emptying revision the popped arc `(xi, xj)` is
consistent. -/
theorem Revise_arcCons {csp : CSP V Val} {xi xj : V}
    (h : (Revise csp xi xj).1 = true)
    (hne : (Revise csp xi xj).2.domains xi ≠ ∅) :
    arcCons (Revise csp xi xj).2 xi xj := by
  have hxij := Revise_revised_ne h hne
  obtain ⟨hR, hdom⟩ := Revise_revised h
  intro x hx
  rw [hdom] at hx
  obtain ⟨hxDi, hxR⟩ := Finset.mem_sdiff.mp hx
  have : ∃ y ∈ csp.domains xj, y ≠ x := by
    by_contra hno
    exact hxR (mem_to_remove.mpr ⟨hxDi, hno⟩)
  rwa [Revise_domains_other (Ne.symm hxij)]

/-- After a successful, non-emptying revision the reverse arc `(xj, xi)` is
consistent as well — this is why AC-3 may skip re-enqueueing it. -/
theorem Revise_arcCons_rev {csp : CSP V Val} {xi xj : V}
    (h : (Revise csp xi xj).1 = true)
    (hne : (Revise csp xi xj).2.domains xi ≠ ∅) :
    arcCons (Revise csp xi xj).2 xj xi := by
  have hxij := Revise_revised_ne h hne
  obtain ⟨hR, hdom⟩ := Revise_revised h
  intro u hu
  rw [Revise_domains_other (Ne.symm hxij)] at hu
  obtain ⟨y, hy⟩ := Finset.nonempty_iff_ne_empty.mpr hne
  refine ⟨y, hy, ?_⟩
  rintro rfl
  rw [hdom] at hy
  obtain ⟨hyDi, hyR⟩ := Finset.mem_sdiff.mp hy
  exact hyR (mem_domain_xj_removed hR hu hyDi)

/-- Shrinking the left-hand domain while keeping the right-hand domain
preserves arc consistency. -/
theorem arcCons_mono {csp csp' : CSP V Val} {a b : V}
    (hsub : csp'.domains a ⊆ csp.domains a)
    (heq : csp'.domains b = csp.domains b)
    (h : arcCons csp a b) : arcCons csp' a b := by
  intro x hx
  obtain ⟨y, hy, hyx⟩ := h x (hsub hx)
  exact ⟨y, heq ▸ hy, hyx⟩

theorem getD_cons_eraseIdx_perm {α : Type} :
    ∀ (l : List α) (i : Nat) (d : α), i < l.length →
      List.Perm (l.getD i d :: l.eraseIdx i) l
  | [], i, d, h => absurd h (by simp)
  | x :: xs, 0, d, _ => by simp
  | x :: xs, i + 1, d, h => by
      have ih := getD_cons_eraseIdx_perm xs i d (by simpa using h)
      simpa using (List.Perm.swap x (xs.getD i d) (xs.eraseIdx i)).trans (ih.cons x)

theorem popArc_perm (pick : List (V × V) → Nat) (a : V × V) (q : List (V × V)) :
    List.Perm ((popArc pick a q).1 :: (popArc pick a q).2) (a :: q) :=
  getD_cons_eraseIdx_perm _ _ _ (Nat.mod_lt _ (by simp))

theorem mem_enqueueArcs {csp : CSP V Val} {xi xj : V} {ab : V × V} :
    ab ∈ enqueueArcs csp xi xj ↔
      ab.1 ∈ (csp.neighbors xi).erase xj ∧ ab.2 = xi := by
  unfold enqueueArcs
  simp only [List.mem_map, mem_finsetAsc]
  constructor
  · rintro ⟨xk, hk, rfl⟩; exact ⟨hk, rfl⟩
  · rintro ⟨h1, h2⟩
    exact ⟨ab.1, h1, by rw [← h2]⟩

theorem ac3Run_zero (pick : List (V × V) → Nat) (csp : CSP V Val)
    (q : List (V × V)) : ac3Run pick 0 csp q = none := rfl

theorem ac3Run_nil (pick : List (V × V) → Nat) (csp : CSP V Val) (fuel : Nat) :
    ac3Run pick (fuel + 1) csp [] = some (true, csp) := rfl

theorem ac3Run_cons (pick : List (V × V) → Nat) (fuel : Nat) (csp : CSP V Val)
    (a : V × V) (q : List (V × V)) :
    ac3Run pick (fuel + 1) csp (a :: q) =
      if (Revise csp (popArc pick a q).1.1 (popArc pick a q).1.2).1 then
        if (Revise csp (popArc pick a q).1.1 (popArc pick a q).1.2).2.domains
            (popArc pick a q).1.1 = ∅ then
          some (false, (Revise csp (popArc pick a q).1.1 (popArc pick a q).1.2).2)
        else
          ac3Run pick fuel (Revise csp (popArc pick a q).1.1 (popArc pick a q).1.2).2
            ((popArc pick a q).2 ++
              enqueueArcs (Revise csp (popArc pick a q).1.1 (popArc pick a q).1.2).2
                (popArc pick a q).1.1 (popArc pick a q).1.2)
      else ac3Run pick fuel csp (popArc pick a q).2 := rfl

end BasicLemmas

section RunLemmas

variable {V Val : Type} [LinearOrder V] [LinearOrder Val]

/-- Structural facts about any completed AC-3 run: the variable list and the
neighbor relation are untouched, domains only shrink, a `true` run never
empties a nonempty domain, and a `false` run ends with an emptied domain. -/
theorem ac3Run_basic (pick : List (V × V) → Nat) :
    ∀ (fuel : Nat) (csp : CSP V Val) (q : List (V × V)) (r : Bool × CSP V Val),
      ac3Run pick fuel csp q = some r →
      r.2.variables = csp.variables ∧ r.2.neighbors = csp.neighbors ∧
      (∀ v, r.2.domains v ⊆ csp.domains v) ∧
      (r.1 = true → ∀ v, r.2.domains v = ∅ → csp.domains v = ∅) ∧
      (r.1 = false → ∃ u, r.2.domains u = ∅) := by
  intro fuel
  induction fuel with
  | zero => intro csp q r h; rw [ac3Run_zero] at h; cases h
  | succ fuel ih =>
      intro csp q r h
      match q with
      | [] =>
          rw [ac3Run_nil] at h
          cases h
          exact ⟨rfl, rfl, fun v => subset_rfl, fun _ v hv => hv, fun hf => by cases hf⟩
      | a :: q =>
          rw [ac3Run_cons] at h
          set xi := (popArc pick a q).1.1 with hxi
          set xj := (popArc pick a q).1.2 with hxj
          set rest := (popArc pick a q).2 with hrest
          split at h
          case isTrue hrev =>
            split at h
            case isTrue hemp =>
              cases h
              refine ⟨Revise_variables _ _ _, Revise_neighbors _ _ _,
                Revise_domains_subset _ _ _, ?_, ?_⟩
              · intro ht; simp at ht
              · intro _; exact ⟨xi, hemp⟩
            case isFalse hemp =>
              obtain ⟨h1, h2, h3, h4, h5⟩ := ih _ _ _ h
              refine ⟨h1.trans (Revise_variables _ _ _),
                h2.trans (Revise_neighbors _ _ _), ?_, ?_, h5⟩
              · intro v; exact (h3 v).trans (Revise_domains_subset _ _ _ v)
              · intro ht v hv
                rcases eq_or_ne v xi with rfl | hvxi
                · exact absurd (h4 ht _ hv) hemp
                · rw [← @Revise_domains_other _ _ _ _ _ _ xj _ hvxi]
                  exact h4 ht v hv
          case isFalse hrev =>
            exact ih _ _ _ h

end RunLemmas

section SoundnessLemmas

variable {V Val : Type} [LinearOrder V] [LinearOrder Val]

/-- Worklist invariant of AC-3: as long as every arc is either still queued or
currently consistent, a run that drains the queue and reports `true` leaves
every arc of the model consistent.  Only symmetry of the neighbor relation is
needed. -/
theorem ac3Run_true_arcCons (pick : List (V × V) → Nat) :
    ∀ (fuel : Nat) (csp : CSP V Val) (q : List (V × V)) (c' : CSP V Val),
      SymmNeighbors csp →
      (∀ a ∈ csp.variables, ∀ b ∈ csp.neighbors a, (a, b) ∈ q ∨ arcCons csp a b) →
      ac3Run pick fuel csp q = some (true, c') → AllArcCons c' := by
  intro fuel
  induction fuel with
  | zero => intro csp q c' _ _ h; rw [ac3Run_zero] at h; cases h
  | succ fuel ih =>
      intro csp q c' hsym hinv h
      match q with
      | [] =>
          rw [ac3Run_nil] at h
          cases h
          intro a ha b hb
          rcases hinv a ha b hb with hq | hc
          · cases hq
          · exact hc
      | a₀ :: q =>
          rw [ac3Run_cons] at h
          rcases hp : popArc pick a₀ q with ⟨⟨xi, xj⟩, rest⟩
          rw [hp] at h
          dsimp only at h
          have hperm : List.Perm ((xi, xj) :: rest) (a₀ :: q) := by
            have := popArc_perm pick a₀ q
            rwa [hp] at this
          have hmem : ∀ ab : V × V, ab ∈ a₀ :: q ↔ ab = (xi, xj) ∨ ab ∈ rest := by
            intro ab
            rw [← hperm.mem_iff]
            exact List.mem_cons
          split at h
          case isTrue hrev =>
            split at h
            case isTrue hemp => simp at h
            case isFalse hemp =>
              refine ih _ _ _ ?_ ?_ h
              · intro a b hb
                rw [Revise_neighbors] at hb ⊢
                exact hsym a b hb
              · intro a ha b hb
                rw [Revise_variables] at ha
                rw [Revise_neighbors] at hb
                rcases hinv a ha b hb with hq | hc
                · rcases (hmem (a, b)).mp hq with heq | hrest'
                  · obtain ⟨rfl, rfl⟩ := Prod.mk.inj heq
                    right; exact Revise_arcCons hrev hemp
                  · left; exact List.mem_append_left _ hrest'
                · by_cases hbxi : b = xi
                  · subst hbxi
                    by_cases haxj : a = xj
                    · subst haxj; right; exact Revise_arcCons_rev hrev hemp
                    · left
                      refine List.mem_append_right _ (mem_enqueueArcs.mpr ⟨?_, rfl⟩)
                      rw [Revise_neighbors]
                      exact Finset.mem_erase.mpr ⟨haxj, hsym a b hb⟩
                  · right
                    exact arcCons_mono (Revise_domains_subset _ _ _ _)
                      (Revise_domains_other hbxi) hc
          case isFalse hrev =>
            refine ih _ _ _ hsym ?_ h
            intro a ha b hb
            rcases hinv a ha b hb with hq | hc
            · rcases (hmem (a, b)).mp hq with heq | hrest'
              · obtain ⟨rfl, rfl⟩ := Prod.mk.inj heq
                right; exact Revise_not_revised_arcCons (by simpa using hrev)
              · left; exact hrest'
            · right; exact hc

end SoundnessLemmas

section TerminationLemmas

variable {V Val : Type} [LinearOrder V] [LinearOrder Val]

theorem le_foldr_max : ∀ (l : List Nat) (a : Nat), a ∈ l → a ≤ l.foldr max 0
  | b :: t, a, h => by
      rcases List.mem_cons.mp h with rfl | h'
      · exact le_max_left _ _
      · exact le_trans (le_foldr_max t a h') (le_max_right _ _)

theorem card_le_maxDeg {csp : CSP V Val} {v : V} (hv : v ∈ csp.variables) :
    (csp.neighbors v).card ≤ maxDeg csp :=
  le_foldr_max _ _ (List.mem_map.mpr ⟨v, hv, rfl⟩)

theorem Revise_maxDeg (csp : CSP V Val) (xi xj : V) :
    maxDeg (Revise csp xi xj).2 = maxDeg csp := by
  unfold maxDeg
  rw [Revise_variables, Revise_neighbors]

theorem length_enqueueArcs (csp : CSP V Val) (xi xj : V) :
    (enqueueArcs csp xi xj).length ≤ (csp.neighbors xi).card := by
  unfold enqueueArcs
  rw [List.length_map, length_finsetAsc]
  exact le_trans Finset.card_erase_le le_rfl

theorem totalSize_lt_of_revised {csp : CSP V Val} {xi xj : V}
    (h : (Revise csp xi xj).1 = true) (hxi : xi ∈ csp.variables) :
    totalSize (Revise csp xi xj).2 < totalSize csp := by
  obtain ⟨hR, hdom⟩ := Revise_revised h
  unfold totalSize
  rw [Revise_variables]
  refine Finset.sum_lt_sum
    (fun v _ => Finset.card_le_card (Revise_domains_subset _ _ _ v)) ?_
  refine ⟨xi, List.mem_toFinset.mpr hxi, ?_⟩
  rw [hdom]
  exact Finset.card_lt_card
    (Finset.sdiff_ssubset (Finset.filter_subset _ _)
      (Finset.nonempty_iff_ne_empty.mpr hR))

/-- The AC-3 loop always halts within `(maxDeg + 1) * totalSize + |queue| + 1`
iterations on a well-formed model: every iteration either strictly shrinks
some domain (re-enqueueing at most `maxDeg` arcs) or strictly shrinks the
queue. -/
theorem ac3Run_isSome (pick : List (V × V) → Nat) :
    ∀ (fuel : Nat) (csp : CSP V Val) (q : List (V × V)),
      SymmNeighbors csp → NeighborsClosed csp → QueueWF csp q →
      (maxDeg csp + 1) * totalSize csp + q.length < fuel →
      (ac3Run pick fuel csp q).isSome = true := by
  intro fuel
  induction fuel with
  | zero => intro csp q _ _ _ hlt; cases hlt
  | succ fuel ih =>
      intro csp q hsym hcl hwf hlt
      match q with
      | [] => rw [ac3Run_nil]; rfl
      | a₀ :: q =>
          rw [ac3Run_cons]
          rcases hp : popArc pick a₀ q with ⟨⟨xi, xj⟩, rest⟩
          dsimp only
          have hperm : List.Perm ((xi, xj) :: rest) (a₀ :: q) := by
            have := popArc_perm pick a₀ q
            rwa [hp] at this
          have harc : (xi, xj) ∈ a₀ :: q := hperm.mem_iff.mp (List.mem_cons_self _ _)
          obtain ⟨hxi, hxj⟩ := hwf _ harc
          have hrest_wf : QueueWF csp rest := fun ab hab =>
            hwf ab (hperm.mem_iff.mp (List.mem_cons_of_mem _ hab))
          have hrest_len : rest.length = q.length := by
            have := hperm.length_eq
            simpa using this
          split
          case isTrue hrev =>
            split
            case isTrue hemp => rfl
            case isFalse hemp =>
              refine ih _ _ ?_ ?_ ?_ ?_
              · intro a b hb
                rw [Revise_neighbors] at hb ⊢
                exact hsym a b hb
              · intro a ha b hb
                rw [Revise_variables] at ha ⊢
                rw [Revise_neighbors] at hb
                exact hcl a ha b hb
              · intro ab hab
                rw [Revise_variables, Revise_neighbors]
                rcases List.mem_append.mp hab with h1 | h1
                · exact hrest_wf ab h1
                · obtain ⟨h2, h3⟩ := mem_enqueueArcs.mp h1
                  rw [Revise_neighbors] at h2
                  obtain ⟨hne, hmem⟩ := Finset.mem_erase.mp h2
                  refine ⟨hcl xi hxi ab.1 hmem, ?_⟩
                  rw [h3]
                  exact hsym xi ab.1 hmem
              · rw [Revise_maxDeg, List.length_append, hrest_len]
                have hS : totalSize (Revise csp xi xj).2 < totalSize csp :=
                  totalSize_lt_of_revised hrev hxi
                have he : (enqueueArcs (Revise csp xi xj).2 xi xj).length ≤ maxDeg csp := by
                  refine le_trans (length_enqueueArcs _ _ _) ?_
                  rw [Revise_neighbors]
                  exact card_le_maxDeg hxi
                have hmul : (maxDeg csp + 1) * totalSize (Revise csp xi xj).2 +
                    (maxDeg csp + 1) ≤ (maxDeg csp + 1) * totalSize csp := by
                  have h1 : totalSize (Revise csp xi xj).2 + 1 ≤ totalSize csp := hS
                  calc (maxDeg csp + 1) * totalSize (Revise csp xi xj).2 + (maxDeg csp + 1)
                      = (maxDeg csp + 1) * (totalSize (Revise csp xi xj).2 + 1) := by ring
                    _ ≤ (maxDeg csp + 1) * totalSize csp :=
                        Nat.mul_le_mul_left _ h1
                have hq : (maxDeg csp + 1) * totalSize csp + (q.length + 1) < fuel + 1 := by
                  simpa using hlt
                omega
          case isFalse hrev =>
            refine ih _ _ hsym hcl hrest_wf ?_
            rw [hrest_len]
            have hq : (maxDeg csp + 1) * totalSize csp + (q.length + 1) < fuel + 1 := by
              simpa using hlt
            omega

end TerminationLemmas

section MaxFixpointLemmas

variable {V Val : Type} [LinearOrder V] [LinearOrder Val]

/-- Completeness of AC-3 relative to arc-consistent subdomain families: no run
ever deletes a value that belongs to an arc-consistent family `E` of
subdomains of the original model `csp0`.  Consequently a `true` run returns a
superset of every such family, and a `false` run pinpoints a variable on
which *every* such family is empty although the run's input was not. -/
theorem ac3Run_max (pick : List (V × V) → Nat) (csp0 : CSP V Val) :
    ∀ (fuel : Nat) (csp : CSP V Val) (q : List (V × V)) (r : Bool × CSP V Val),
      csp.variables = csp0.variables → csp.neighbors = csp0.neighbors →
      SymmNeighbors csp → NeighborsClosed csp → QueueWF csp q →
      (∀ E, ACSub csp0 E → ∀ v, E v ⊆ csp.domains v) →
      ac3Run pick fuel csp q = some r →
      (r.1 = true → ∀ E, ACSub csp0 E → ∀ v, E v ⊆ r.2.domains v) ∧
      (r.1 = false → ∃ xi, r.2.domains xi = ∅ ∧ csp.domains xi ≠ ∅ ∧
        ∀ E, ACSub csp0 E → E xi = ∅) := by
  intro fuel
  induction fuel with
  | zero => intro csp q r _ _ _ _ _ _ h; rw [ac3Run_zero] at h; cases h
  | succ fuel ih =>
      intro csp q r hvars hneigh hsym hcl hwf hEpres h
      match q with
      | [] =>
          rw [ac3Run_nil] at h
          cases h
          exact ⟨fun _ => hEpres, fun hf => by cases hf⟩
      | a₀ :: q =>
          rw [ac3Run_cons] at h
          rcases hp : popArc pick a₀ q with ⟨⟨xi, xj⟩, rest⟩
          rw [hp] at h
          dsimp only at h
          have hperm : List.Perm ((xi, xj) :: rest) (a₀ :: q) := by
            have := popArc_perm pick a₀ q
            rwa [hp] at this
          have harc : (xi, xj) ∈ a₀ :: q := hperm.mem_iff.mp (List.mem_cons_self _ _)
          obtain ⟨hxi, hxj⟩ := hwf _ harc
          have hrest_wf : QueueWF csp rest := fun ab hab =>
            hwf ab (hperm.mem_iff.mp (List.mem_cons_of_mem _ hab))
          split at h
          case isTrue hrev =>
            have hpres : ∀ E, ACSub csp0 E → ∀ v,
                E v ⊆ (Revise csp xi xj).2.domains v := by
              intro E hE v x hx
              rcases eq_or_ne v xi with rfl | hv
              · have hconsE := hE.2
                have hxDi : x ∈ csp.domains v := hEpres E hE v hx
                obtain ⟨hR, hdom⟩ := Revise_revised hrev
                rw [hdom, Finset.mem_sdiff]
                refine ⟨hxDi, fun hxR => ?_⟩
                obtain ⟨_, hncond⟩ := mem_to_remove.mp hxR
                obtain ⟨y, hy, hyx⟩ :=
                  hconsE v (hvars ▸ hxi) xj (hneigh ▸ hxj) x hx
                exact hncond ⟨y, hEpres E hE xj hy, hyx⟩
              · rw [Revise_domains_other hv]
                exact hEpres E hE v hx
            split at h
            case isTrue hemp =>
              cases h
              constructor
              · intro ht; simp at ht
              · intro _
                refine ⟨xi, hemp, ?_, ?_⟩
                · obtain ⟨hR, _⟩ := Revise_revised hrev
                  intro hDi
                  exact hR (Finset.subset_empty.mp
                    (hDi ▸ Finset.filter_subset _ _))
                · intro E hE
                  exact Finset.subset_empty.mp (hemp ▸ hpres E hE xi)
            case isFalse hemp =>
              obtain ⟨htrue, hfalse⟩ := ih _ _ _
                (by rw [Revise_variables]; exact hvars)
                (by rw [Revise_neighbors]; exact hneigh)
                (by intro a b hb; rw [Revise_neighbors] at hb ⊢; exact hsym a b hb)
                (by intro a ha b hb
                    rw [Revise_variables] at ha ⊢
                    rw [Revise_neighbors] at hb
                    exact hcl a ha b hb)
                (by intro ab hab
                    rw [Revise_variables, Revise_neighbors]
                    rcases List.mem_append.mp hab with h1 | h1
                    · exact hrest_wf ab h1
                    · obtain ⟨h2, h3⟩ := mem_enqueueArcs.mp h1
                      rw [Revise_neighbors] at h2
                      obtain ⟨hne, hmem⟩ := Finset.mem_erase.mp h2
                      refine ⟨hcl xi hxi ab.1 hmem, ?_⟩
                      rw [h3]
                      exact hsym xi ab.1 hmem)
                hpres h
              refine ⟨htrue, fun hf => ?_⟩
              obtain ⟨u, hu1, hu2, hu3⟩ := hfalse hf
              refine ⟨u, hu1, fun hDu => ?_, hu3⟩
              exact hu2 (Finset.subset_empty.mp
                (hDu ▸ Revise_domains_subset csp xi xj u))
          case isFalse hrev =>
            exact ih _ _ _ hvars hneigh hsym hcl hrest_wf hEpres h

end MaxFixpointLemmas

section LiftingLemmas

variable {V Val : Type} [LinearOrder V] [LinearOrder Val]

theorem initQueue_complete (csp : CSP V Val) : QueueComplete csp (initQueue csp) := by
  intro a ha b hb
  unfold initQueue
  refine List.mem_flatMap.mpr ⟨a, ha, ?_⟩
  exact List.mem_map.mpr ⟨b, (mem_finsetAsc _ _).mpr hb, rfl⟩

theorem initQueue_wf (csp : CSP V Val) : QueueWF csp (initQueue csp) := by
  intro ab hab
  unfold initQueue at hab
  obtain ⟨a, ha, hmem⟩ := List.mem_flatMap.mp hab
  obtain ⟨b, hb, rfl⟩ := List.mem_map.mp hmem
  exact ⟨ha, (mem_finsetAsc _ _).mp hb⟩

theorem validIQ_initQueue : ValidIQ (fun csp : CSP V Val => initQueue csp) :=
  fun csp => ⟨initQueue_complete csp, initQueue_wf csp⟩

theorem AC3With_true {iq : CSP V Val → List (V × V)} {pick : List (V × V) → Nat}
    {csp c' : CSP V Val} (h : AC3With iq pick csp = (true, c')) :
    ac3Run pick (ac3Bound csp (iq csp)) csp (iq csp) = some (true, c') := by
  unfold AC3With at h
  rcases hrun : ac3Run pick (ac3Bound csp (iq csp)) csp (iq csp) with _ | r
  · rw [hrun] at h
    simp at h
  · rw [hrun] at h
    simp at h
    rw [h]

theorem CSP_ext {c1 c2 : CSP V Val} (h1 : c1.variables = c2.variables)
    (h2 : c1.domains = c2.domains) (h3 : c1.neighbors = c2.neighbors) :
    c1 = c2 := by
  cases c1; cases c2
  cases h1; cases h2; cases h3
  rfl

theorem collapse_variables (csp : CSP V Val) (var : V) (val : Val) :
    (collapse csp var val).variables = csp.variables := rfl

theorem collapse_neighbors (csp : CSP V Val) (var : V) (val : Val) :
    (collapse csp var val).neighbors = csp.neighbors := rfl

end LiftingLemmas

section ClaimC1

variable {V Val : Type} [LinearOrder V] [LinearOrder Val]

/-- C1: For every constraint model with a symmetric neighbor relation, if
`AC3` returns consistent (`true`), the resulting model is arc-consistent:
for every model variable `Xi`, every neighbor `Xj` of `Xi`, and every value
`x` remaining in `Xi`'s domain, some `y` in `Xj`'s domain has `y ≠ x`. -/
theorem AC3_true_arc_consistent (csp c' : CSP V Val)
    (hsym : SymmNeighbors csp) (h : AC3 csp = (true, c')) :
    ∀ xi ∈ csp.variables, ∀ xj ∈ csp.neighbors xi, ∀ x ∈ c'.domains xi,
      ∃ y ∈ c'.domains xj, y ≠ x := by
  have hrun := AC3With_true h
  have hall := ac3Run_true_arcCons (fun _ => 0) _ csp _ c' hsym
    (fun a ha b hb => Or.inl (initQueue_complete csp a ha b hb)) hrun
  intro xi hxi xj hxj
  obtain ⟨h1, h2, -⟩ := ac3Run_basic (fun _ => 0) _ csp _ _ hrun
  exact hall xi (h1.symm ▸ hxi) xj (h2.symm ▸ hxj)

/-- Witness for C1 on a concrete model: in `AC3 toyPair`'s result, the value
`0` of variable `0` still has a differing support at its neighbor `1`. -/
theorem AC3_true_arc_consistent_witness :
    ∃ y ∈ (AC3 toyPair).2.domains 1, y ≠ (0 : Fin 3) := by
  have h : AC3 toyPair = (true, (AC3 toyPair).2) := by
    have h1 : (AC3 toyPair).1 = true := by decide
    calc AC3 toyPair = ((AC3 toyPair).1, (AC3 toyPair).2) := rfl
      _ = (true, (AC3 toyPair).2) := by rw [h1]
  exact AC3_true_arc_consistent toyPair (AC3 toyPair).2
    (by unfold SymmNeighbors; decide) h
    0 (by decide) 1 (by decide) 0 (by decide)

end ClaimC1

section ClaimC6

variable {V Val : Type} [LinearOrder V] [LinearOrder Val]

/-- The fuel `ac3Bound` always suffices on a well-formed model (helper shared
by several results below). -/
theorem ac3_fuel_sufficient (csp : CSP V Val) (hsym : SymmNeighbors csp)
    (hcl : NeighborsClosed csp) :
    ∀ (pick : List (V × V) → Nat) (q : List (V × V)), QueueWF csp q →
      (ac3Run pick (ac3Bound csp q) csp q).isSome = true := by
  intro pick q hwf
  refine ac3Run_isSome pick _ csp q hsym hcl hwf ?_
  unfold ac3Bound
  omega

/-- C6: AC-3 terminates on every model with finite domains and a finite,
symmetric, variable-closed neighbor relation: with the explicit fuel bound
`ac3Bound` the worklist loop always completes (never returns `none`),
whatever the processing order and whatever well-formed queue it starts
from.  An arc is re-enqueued only when `Revise` strictly shrinks a finite
domain, so the loop runs at most `(maxDeg+1) * totalSize + |queue|` steps. -/
theorem AC3_terminates (csp : CSP V Val) (hsym : SymmNeighbors csp)
    (hcl : NeighborsClosed csp) :
    ∀ (pick : List (V × V) → Nat) (q : List (V × V)), QueueWF csp q →
      (ac3Run pick (ac3Bound csp q) csp q).isSome = true :=
  ac3_fuel_sufficient csp hsym hcl

/-- Witness for C6: the AC-3 loop of `AC3 toyPair` completes on its own
initial queue. -/
theorem AC3_terminates_witness :
    (ac3Run (fun _ => 0) (ac3Bound toyPair (initQueue toyPair)) toyPair
      (initQueue toyPair)).isSome = true :=
  AC3_terminates toyPair (by unfold SymmNeighbors; decide)
    (by unfold NeighborsClosed; decide) (fun _ => 0) (initQueue toyPair)
    (initQueue_wf toyPair)

end ClaimC6

section ClaimC5

variable {V Val : Type} [LinearOrder V] [LinearOrder Val]

theorem collapse_domains_self (csp : CSP V Val) (var : V) (val : Val) :
    (collapse csp var val).domains var = {val} :=
  Function.update_same _ _ _

theorem collapse_domains_other {csp : CSP V Val} {var v : V} (val : Val)
    (h : v ≠ var) : (collapse csp var val).domains v = csp.domains v :=
  Function.update_noteq h _ _

/-- C5: domains are monotone non-increasing under every operation.  Each
`Revise` leaves every domain a subset (hence no larger) of what it was, the
clone-and-collapse step of `backtrack` does too (the trial value is drawn
from the branching variable's current domain), and so does any completed
AC-3 run; no operation ever adds a value to a domain. -/
theorem domains_monotone (csp : CSP V Val) (xi xj var v : V) (val : Val) :
    ((Revise csp xi xj).2.domains v ⊆ csp.domains v ∧
      ((Revise csp xi xj).2.domains v).card ≤ (csp.domains v).card) ∧
    (val ∈ csp.domains var →
      (collapse csp var val).domains v ⊆ csp.domains v ∧
        ((collapse csp var val).domains v).card ≤ (csp.domains v).card) ∧
    (∀ (pick : List (V × V) → Nat) (fuel : Nat) (q : List (V × V))
        (r : Bool × CSP V Val), ac3Run pick fuel csp q = some r →
      r.2.domains v ⊆ csp.domains v ∧
        (r.2.domains v).card ≤ (csp.domains v).card) := by
  refine ⟨⟨Revise_domains_subset _ _ _ _,
    Finset.card_le_card (Revise_domains_subset _ _ _ _)⟩, ?_, ?_⟩
  · intro hval
    have hsub : (collapse csp var val).domains v ⊆ csp.domains v := by
      rcases eq_or_ne v var with rfl | hv
      · rw [collapse_domains_self]
        intro x hx
        rw [Finset.mem_singleton] at hx
        exact hx ▸ hval
      · rw [collapse_domains_other val hv]
    exact ⟨hsub, Finset.card_le_card hsub⟩
  · intro pick fuel q r h
    have hsub := (ac3Run_basic pick fuel csp q r h).2.2.1 v
    exact ⟨hsub, Finset.card_le_card hsub⟩

/-- Witness for C5 at concrete inputs: collapsing variable `0` of `toyPair`
to the value `0` and revising arc `(0, 1)` both leave domain sizes
non-increasing. -/
theorem domains_monotone_witness :
    (0 : Fin 3) ∈ toyPair.domains 0 ∧
      ((collapse toyPair 0 0).domains 0).card ≤ (toyPair.domains 0).card ∧
      ((Revise toyPair 0 1).2.domains 0).card ≤ (toyPair.domains 0).card :=
  ⟨by decide, ((domains_monotone toyPair 0 1 0 0 0).2.1 (by decide)).2,
    (domains_monotone toyPair 0 1 0 0 0).1.2⟩

end ClaimC5

section ClaimC8

variable {V Val : Type} [LinearOrder V] [LinearOrder Val]

theorem minBySize_none_iff (csp : CSP V Val) :
    ∀ l : List V, minBySize csp l = none ↔ l = []
  | [] => by simp [minBySize]
  | v :: vs => by
      constructor
      · intro h
        unfold minBySize at h
        split at h
        · cases h
        · split at h <;> cases h
      · intro h; cases h

theorem minBySize_spec (csp : CSP V Val) :
    ∀ (l : List V) (v : V), minBySize csp l = some v →
      ∃ l1 l2, l = l1 ++ v :: l2 ∧
        (∀ w ∈ l1, (csp.domains v).card < (csp.domains w).card) ∧
        (∀ w ∈ l2, (csp.domains v).card ≤ (csp.domains w).card) := by
  intro l
  induction l with
  | nil => intro v h; cases h
  | cons x xs ih =>
      intro v h
      unfold minBySize at h
      split at h
      case h_1 hm =>
        cases h
        have hxs : xs = [] := (minBySize_none_iff csp xs).mp hm
        subst hxs
        exact ⟨[], [], rfl, by simp, by simp⟩
      case h_2 w hm =>
        obtain ⟨m1, m2, hdec, hlt, hle⟩ := ih w hm
        split at h
        case isTrue hc =>
          cases h
          refine ⟨x :: m1, m2, by rw [hdec]; rfl, ?_, hle⟩
          intro u hu
          rcases List.mem_cons.mp hu with rfl | hu'
          · exact hc
          · exact hlt u hu'
        case isFalse hc =>
          cases h
          push_neg at hc
          refine ⟨[], xs, rfl, by simp, ?_⟩
          intro u hu
          rw [hdec] at hu
          rcases List.mem_append.mp hu with hu' | hu'
          · exact le_trans hc (le_of_lt (hlt u hu'))
          · rcases List.mem_cons.mp hu' with rfl | hu''
            · exact hc
            · exact le_trans hc (hle u hu'')

/-- C8: `select_unassigned_variable` returns `none` exactly when no variable
has more than one remaining value (solved or stuck alike), and otherwise
returns the first variable, in the model's enumeration order, whose domain is
smallest among the domains of size `> 1`: everything before it in the
filtered enumeration has a strictly larger domain, everything after it one at
least as large. -/
theorem select_unassigned_variable_spec (csp : CSP V Val) :
    (select_unassigned_variable csp = none ↔
      ∀ v ∈ csp.variables, ¬ 1 < (csp.domains v).card) ∧
    ∀ v, select_unassigned_variable csp = some v →
      v ∈ csp.variables ∧ 1 < (csp.domains v).card ∧
      ∃ l1 l2,
        csp.variables.filter (fun w => 1 < (csp.domains w).card) =
          l1 ++ v :: l2 ∧
        (∀ w ∈ l1, (csp.domains v).card < (csp.domains w).card) ∧
        (∀ w ∈ l2, (csp.domains v).card ≤ (csp.domains w).card) := by
  constructor
  · unfold select_unassigned_variable
    rw [minBySize_none_iff, List.filter_eq_nil_iff]
    simp
  · intro v h
    unfold select_unassigned_variable at h
    obtain ⟨l1, l2, hdec, hlt, hle⟩ := minBySize_spec csp _ v h
    have hv : v ∈ csp.variables.filter (fun w => 1 < (csp.domains w).card) := by
      rw [hdec]
      exact List.mem_append_right _ (List.mem_cons_self _ _)
    obtain ⟨hv1, hv2⟩ := List.mem_filter.mp hv
    exact ⟨hv1, by simpa using hv2, l1, l2, hdec, hlt, hle⟩

/-- Witness for C8: on `toyPair` (both domains of size 2) the first variable
is selected; on the solved model `toySolved` nothing is selected. -/
theorem select_unassigned_variable_witness :
    (0 : Fin 2) ∈ toyPair.variables ∧ 1 < (toyPair.domains 0).card ∧
      select_unassigned_variable toySolved = none :=
  ⟨((select_unassigned_variable_spec toyPair).2 0 (by decide)).1,
    ((select_unassigned_variable_spec toyPair).2 0 (by decide)).2.1,
    (select_unassigned_variable_spec toySolved).1.mpr (by decide)⟩

end ClaimC8

section ClaimC4

variable {V Val : Type} [LinearOrder V] [LinearOrder Val]

/-- C4: in any well-formed model in which two neighboring variables have
equal singleton domains, AC-3 empties some variable's domain and returns
`false` as an ordinary return value, and the driver then reports no solution
through the branch that never invokes backtracking search
(`MainOutcome.unsatNoSearch`). -/
theorem AC3_twin_singletons_inconsistent (csp : CSP V Val) (xi xj : V) (v : Val)
    (hsym : SymmNeighbors csp) (hcl : NeighborsClosed csp)
    (hxi : xi ∈ csp.variables) (hxj : xj ∈ csp.neighbors xi)
    (hdi : csp.domains xi = {v}) (hdj : csp.domains xj = {v}) :
    (AC3 csp).1 = false ∧ (∃ u, (AC3 csp).2.domains u = ∅) ∧
      mainSolve csp = MainOutcome.unsatNoSearch := by
  have hsome := ac3_fuel_sufficient csp hsym hcl (fun _ => 0) (initQueue csp)
    (initQueue_wf csp)
  rcases hrun : ac3Run (fun _ => 0) (ac3Bound csp (initQueue csp)) csp
      (initQueue csp) with _ | r
  · rw [hrun] at hsome; simp at hsome
  · have hr1 : r.1 = false := by
      rcases Bool.eq_false_or_eq_true r.1 with ht | hb
      swap
      · exact hb
      · exfalso
        have hreta : r = (true, r.2) := by rw [← ht]
        rw [hreta] at hrun
        have hall := ac3Run_true_arcCons (fun _ => 0) _ csp _ r.2 hsym
          (fun a ha b hb => Or.inl (initQueue_complete csp a ha b hb)) hrun
        obtain ⟨hv1, hv2, hsub, hnep, -⟩ :=
          ac3Run_basic (fun _ => 0) _ csp _ _ hrun
        have hxine : r.2.domains xi ≠ ∅ := by
          intro h0
          have := hnep rfl xi h0
          rw [hdi] at this
          simp at this
        obtain ⟨x, hx⟩ := Finset.nonempty_iff_ne_empty.mpr hxine
        have hxv : x = v := by
          have := hsub xi hx
          rw [hdi] at this
          exact Finset.mem_singleton.mp this
        obtain ⟨y, hy, hyx⟩ := hall xi (hv1.symm ▸ hxi) xj (hv2.symm ▸ hxj) x hx
        have hyv : y = v := by
          have := hsub xj hy
          rw [hdj] at this
          exact Finset.mem_singleton.mp this
        rw [hxv, hyv] at hyx
        exact hyx rfl
    have hAC3 : AC3 csp = r := by
      unfold AC3 AC3With
      rw [hrun]
      rfl
    have hAC3' : AC3With initQueue (fun _ => 0) csp = r := hAC3
    refine ⟨by rw [hAC3]; exact hr1, ?_, ?_⟩
    · rw [hAC3]
      exact (ac3Run_basic (fun _ => 0) _ csp _ _ hrun).2.2.2.2 hr1
    · simp only [mainSolve, solveWith]
      rw [hAC3', hr1]
      rfl

/-- Witness for C4: on `toyTwin` (neighbors `0` and `1` both pinned to the
value `1`) AC-3 reports inconsistent and the driver reports no solution
without searching. -/
theorem AC3_twin_singletons_inconsistent_witness :
    (AC3 toyTwin).1 = false ∧ mainSolve toyTwin = MainOutcome.unsatNoSearch :=
  ⟨(AC3_twin_singletons_inconsistent toyTwin 0 1 1
      (by unfold SymmNeighbors; decide) (by unfold NeighborsClosed; decide)
      (by decide) (by decide) (by decide) (by decide)).1,
    (AC3_twin_singletons_inconsistent toyTwin 0 1 1
      (by unfold SymmNeighbors; decide) (by unfold NeighborsClosed; decide)
      (by decide) (by decide) (by decide) (by decide)).2.2⟩

end ClaimC4

section ClaimC2

variable {V Val : Type} [LinearOrder V] [LinearOrder Val]

/-- Inversion for the trial-value loop: a returned model comes from some
trial value whose propagation succeeded and whose recursive search
succeeded. -/
theorem tryValues_some (ac3fn : CSP V Val → Bool × CSP V Val)
    (next : CSP V Val → Option (CSP V Val)) (csp : CSP V Val) (var : V) :
    ∀ (vals : List Val) (m : CSP V Val),
      tryValues ac3fn next csp var vals = some m →
      ∃ v ∈ vals, (ac3fn (collapse csp var v)).1 = true ∧
        next (ac3fn (collapse csp var v)).2 = some m := by
  intro vals
  induction vals with
  | nil => intro m h; cases h
  | cons v vs ih =>
      intro m h
      unfold tryValues deepcopy at h
      dsimp only at h
      split at h
      case isTrue hrev =>
        split at h
        case h_1 sol heq =>
          cases h
          exact ⟨v, List.mem_cons_self _ _, hrev, heq⟩
        case h_2 heq =>
          obtain ⟨u, hu, h1, h2⟩ := ih m h
          exact ⟨u, List.mem_cons_of_mem _ hu, h1, h2⟩
      case isFalse hrev =>
        obtain ⟨u, hu, h1, h2⟩ := ih m h
        exact ⟨u, List.mem_cons_of_mem _ hu, h1, h2⟩

/-- Soundness of `backtrack` (for any worklist order), given an
arc-consistent input: a returned model is fully assigned and each pair of
neighboring singletons differs. -/
theorem backtrackWith_sound (iq : CSP V Val → List (V × V))
    (pick : List (V × V) → Nat) (hiq : ValidIQ iq) :
    ∀ (fuel : Nat) (csp m : CSP V Val),
      backtrackWith iq pick fuel csp = some m →
      SymmNeighbors csp → AllArcCons csp →
      is_solved m = true ∧
      ∀ a ∈ m.variables, ∀ b ∈ m.neighbors a, ∀ x y,
        m.domains a = {x} → m.domains b = {y} → x ≠ y := by
  intro fuel
  induction fuel with
  | zero => intro csp m h _ _; cases h
  | succ fuel ih =>
      intro csp m h hsym hall
      unfold backtrackWith at h
      split at h
      case isTrue hsolved =>
        cases h
        refine ⟨hsolved, ?_⟩
        intro a ha b hb x y hx hy
        obtain ⟨y', hy', hne⟩ :=
          hall a ha b hb x (by rw [hx]; exact Finset.mem_singleton_self x)
        rw [hy] at hy'
        rw [Finset.mem_singleton.mp hy'] at hne
        exact hne.symm
      case isFalse hnotsolved =>
        split at h
        case h_1 => cases h
        case h_2 var hvar =>
          obtain ⟨v, hv, hac, hnext⟩ := tryValues_some _ _ _ _ _ _ h
          have hpair : AC3With iq pick (collapse csp var v) =
              (true, (AC3With iq pick (collapse csp var v)).2) := by
            rw [← hac]
          have hrun := AC3With_true hpair
          obtain ⟨hv1, hv2, -, -, -⟩ := ac3Run_basic pick _ _ _ _ hrun
          have hsym' : SymmNeighbors (AC3With iq pick (collapse csp var v)).2 := by
            intro a b hb
            rw [hv2] at hb ⊢
            exact hsym a b hb
          have hall' : AllArcCons (AC3With iq pick (collapse csp var v)).2 :=
            ac3Run_true_arcCons pick
              (ac3Bound (collapse csp var v) (iq (collapse csp var v)))
              (collapse csp var v) (iq (collapse csp var v)) _
              (fun a b hb => hsym a b hb)
              (fun a ha b hb =>
                Or.inl ((hiq (collapse csp var v)).1 a ha b hb)) hrun
          exact ih _ m hnext hsym' hall'

/-- C2 (amended): whenever `backtrack` is given an arc-consistent model —
which is how the program always calls it, right after `AC3` reported
consistent — and returns a model rather than `False`, that model is fully
assigned (`is_solved`) and every pair of neighboring singleton values
differs. -/
theorem backtrack_sound (csp m : CSP V Val) (hsym : SymmNeighbors csp)
    (hall : AllArcCons csp) (h : backtrack csp = some m) :
    is_solved m = true ∧
    ∀ a ∈ m.variables, ∀ b ∈ m.neighbors a, ∀ x y,
      m.domains a = {x} → m.domains b = {y} → x ≠ y :=
  backtrackWith_sound initQueue (fun _ => 0) validIQ_initQueue _ csp m h
    hsym hall

/-- Counterexample to C2 as stated: on a model that is already "solved" but
violates the constraint (two neighboring variables pinned to the same value
`1`), `backtrack` returns the model unchanged, so a returned model need not
satisfy the constraints when the input was not arc-consistent. -/
theorem backtrack_returns_violating_model :
    backtrack toyTwin = some toyTwin ∧ (1 : Fin 2) ∈ toyTwin.neighbors 0 ∧
      toyTwin.domains 0 = {1} ∧ toyTwin.domains 1 = {1} ∧
      ¬ (∀ x y : Fin 3, toyTwin.domains 0 = {x} → toyTwin.domains 1 = {y} →
          x ≠ y) :=
  ⟨rfl, by decide, by decide, by decide, by decide⟩

/-- Witness for the amended C2 on `toySolved` (arc-consistent and solved):
`backtrack` returns it, it is fully assigned, and its two neighboring
singleton values `0` and `1` differ. -/
theorem backtrack_sound_witness :
    is_solved toySolved = true ∧ (0 : Fin 3) ≠ 1 :=
  ⟨(backtrack_sound toySolved toySolved (by unfold SymmNeighbors; decide)
      (by unfold AllArcCons arcCons; decide) rfl).1,
    (backtrack_sound toySolved toySolved (by unfold SymmNeighbors; decide)
      (by unfold AllArcCons arcCons; decide) rfl).2 0 (by decide) 1 (by decide)
      0 1 (by decide) (by decide)⟩

end ClaimC2

section ClaimC3

variable {V Val : Type} [LinearOrder V] [LinearOrder Val]

/-- C3 (amended): the source's model stores no predicate — `CSP.__init__`
takes only `variables`, `domains` and `neighbors` — and `Revise` hardcodes
the all-different rule: it coincides everywhere with the spec's
predicate-parameterised revision instantiated at the disequality predicate
`satisfies(x, y) = (y != x)`. -/
theorem Revise_eq_RevisePred (csp : CSP V Val) (xi xj : V) :
    Revise csp xi xj = RevisePred (fun x y => y != x) csp xi xj := by
  have hfilter :
      (csp.domains xi).filter
        (fun x => ¬ ∃ y ∈ csp.domains xj, ((fun x y => y != x) x y) = true) =
      to_remove csp xi xj := by
    unfold to_remove
    apply Finset.filter_congr
    intro x _
    simp [bne_iff_ne]
  unfold Revise RevisePred
  rw [hfilter]

/-- Counterexample to C3 as stated: `Revise` does not consult any stored
predicate.  On the model with both domains `{1}` it removes the value (its
hardcoded `y != x` semantics reports a revision), whereas the spec's
predicate-parameterised revision under the always-satisfied predicate
revises nothing; in particular the two results differ. -/
theorem Revise_not_pluggable :
    (Revise toyTwin 0 1).1 = true ∧
      (RevisePred (fun _ _ => true) toyTwin 0 1).1 = false ∧
      Revise toyTwin 0 1 ≠ RevisePred (fun _ _ => true) toyTwin 0 1 := by
  refine ⟨by decide, by decide, fun hEq => ?_⟩
  have h1 : (Revise toyTwin 0 1).1 = (RevisePred (fun _ _ => true) toyTwin 0 1).1 :=
    congrArg Prod.fst hEq
  rw [show (Revise toyTwin 0 1).1 = true by decide,
    show (RevisePred (fun _ _ => true) toyTwin 0 1).1 = false by decide] at h1
  cases h1

end ClaimC3

section ClaimC7

variable {V Val : Type} [LinearOrder V] [LinearOrder Val]

/-- Any two completed AC-3 runs on the same well-formed model, from any two
full queues and in any two processing orders, agree on the consistency flag
and — when consistent — on the entire resulting model (both compute the
greatest arc-consistent subdomain family). -/
theorem ac3Run_unique {pick1 pick2 : List (V × V) → Nat} {csp : CSP V Val}
    {q1 q2 : List (V × V)} {f1 f2 : Nat} {r1 r2 : Bool × CSP V Val}
    (hsym : SymmNeighbors csp) (hcl : NeighborsClosed csp)
    (hq1c : QueueComplete csp q1) (hq1w : QueueWF csp q1)
    (hq2c : QueueComplete csp q2) (hq2w : QueueWF csp q2)
    (h1 : ac3Run pick1 f1 csp q1 = some r1)
    (h2 : ac3Run pick2 f2 csp q2 = some r2) :
    r1.1 = r2.1 ∧ (r1.1 = true → r1.2 = r2.2) := by
  obtain ⟨hv1, hn1, hs1, hne1, hfe1⟩ := ac3Run_basic pick1 f1 csp q1 r1 h1
  obtain ⟨hv2, hn2, hs2, hne2, hfe2⟩ := ac3Run_basic pick2 f2 csp q2 r2 h2
  have hmax1 := ac3Run_max pick1 csp f1 csp q1 r1 rfl rfl hsym hcl hq1w
    (fun E hE v => hE.1 v) h1
  have hmax2 := ac3Run_max pick2 csp f2 csp q2 r2 rfl rfl hsym hcl hq2w
    (fun E hE v => hE.1 v) h2
  have hacsub : ∀ (pick : List (V × V) → Nat) (f : Nat) (q : List (V × V))
      (r : Bool × CSP V Val), QueueComplete csp q →
      ac3Run pick f csp q = some r → r.1 = true → ACSub csp r.2.domains := by
    intro pick f q r hqc hrun ht
    obtain ⟨hv, hn, hs, -, -⟩ := ac3Run_basic pick f csp q r hrun
    have hreta : r = (true, r.2) := by rw [← ht]
    rw [hreta] at hrun
    have hall := ac3Run_true_arcCons pick f csp q r.2 hsym
      (fun a ha b hb => Or.inl (hqc a ha b hb)) hrun
    refine ⟨hs, ?_⟩
    intro a ha b hb x hx
    exact hall a (hv.symm ▸ ha) b (hn.symm ▸ hb) x hx
  cases hb1 : r1.1 <;> cases hb2 : r2.1
  · exact ⟨rfl, fun ht => by cases ht⟩
  · exfalso
    obtain ⟨xi, hxe, hxne, hxall⟩ := hmax1.2 hb1
    have hsub2 : ACSub csp r2.2.domains := hacsub pick2 f2 q2 r2 hq2c h2 hb2
    exact hxne (hne2 hb2 xi (hxall _ hsub2))
  · exfalso
    obtain ⟨xi, hxe, hxne, hxall⟩ := hmax2.2 hb2
    have hsub1 : ACSub csp r1.2.domains := hacsub pick1 f1 q1 r1 hq1c h1 hb1
    exact hxne (hne1 hb1 xi (hxall _ hsub1))
  · refine ⟨rfl, fun _ => ?_⟩
    have hsub1 := hacsub pick1 f1 q1 r1 hq1c h1 hb1
    have hsub2 := hacsub pick2 f2 q2 r2 hq2c h2 hb2
    have hge1 := hmax1.1 hb1
    have hge2 := hmax2.1 hb2
    refine CSP_ext (hv1.trans hv2.symm) ?_ (hn1.trans hn2.symm)
    funext v
    exact Finset.Subset.antisymm (hge2 _ hsub1 v) (hge1 _ hsub2 v)

/-- Order-independence of `AC3` itself: flag and (when consistent) result
model do not depend on the queue builder or the arc-selection order. -/
theorem AC3With_unique (iq1 iq2 : CSP V Val → List (V × V))
    (pick1 pick2 : List (V × V) → Nat) (csp : CSP V Val)
    (hsym : SymmNeighbors csp) (hcl : NeighborsClosed csp)
    (hiq1 : ValidIQ iq1) (hiq2 : ValidIQ iq2) :
    (AC3With iq1 pick1 csp).1 = (AC3With iq2 pick2 csp).1 ∧
    ((AC3With iq1 pick1 csp).1 = true →
      (AC3With iq1 pick1 csp).2 = (AC3With iq2 pick2 csp).2) := by
  have hs1 := ac3_fuel_sufficient csp hsym hcl pick1 (iq1 csp) (hiq1 csp).2
  have hs2 := ac3_fuel_sufficient csp hsym hcl pick2 (iq2 csp) (hiq2 csp).2
  rcases hr1 : ac3Run pick1 (ac3Bound csp (iq1 csp)) csp (iq1 csp) with _ | r1
  · rw [hr1] at hs1; simp at hs1
  · rcases hr2 : ac3Run pick2 (ac3Bound csp (iq2 csp)) csp (iq2 csp) with _ | r2
    · rw [hr2] at hs2; simp at hs2
    · have huni := ac3Run_unique hsym hcl (hiq1 csp).1 (hiq1 csp).2
        (hiq2 csp).1 (hiq2 csp).2 hr1 hr2
      have e1 : AC3With iq1 pick1 csp = r1 := by
        unfold AC3With; rw [hr1]; rfl
      have e2 : AC3With iq2 pick2 csp = r2 := by
        unfold AC3With; rw [hr2]; rfl
      rw [e1, e2]
      exact huni

/-- Congruence of the trial-value loop under agreeing propagation and
recursion oracles. -/
theorem tryValues_congr (ac3a ac3b : CSP V Val → Bool × CSP V Val)
    (nexta nextb : CSP V Val → Option (CSP V Val)) (csp : CSP V Val) (var : V)
    (hac : ∀ v : Val,
      (ac3a (collapse csp var v)).1 = (ac3b (collapse csp var v)).1 ∧
      ((ac3a (collapse csp var v)).1 = true →
        (ac3a (collapse csp var v)).2 = (ac3b (collapse csp var v)).2))
    (hnext : ∀ v : Val, (ac3a (collapse csp var v)).1 = true →
      nexta (ac3a (collapse csp var v)).2 = nextb (ac3a (collapse csp var v)).2) :
    ∀ vals : List Val,
      tryValues ac3a nexta csp var vals = tryValues ac3b nextb csp var vals := by
  intro vals
  induction vals with
  | nil => rfl
  | cons v vs ih =>
      unfold tryValues deepcopy
      dsimp only
      have hb2 := (hac v).1
      cases hb : (ac3a (collapse csp var v)).1
      · rw [hb] at hb2
        rw [if_neg (by simp), if_neg (by rw [← hb2]; simp)]
        exact ih
      · rw [hb] at hb2
        have hsnd := (hac v).2 hb
        have hn := hnext v hb
        rw [if_pos rfl, if_pos hb2.symm]
        rw [← hsnd, ← hn]
        rcases hnx : nexta (ac3a (collapse csp var v)).2 with _ | sol
        · dsimp only
          exact ih
        · rfl

/-- Congruence of `backtrack` under different AC-3 orders. -/
theorem backtrackWith_congr (iq1 iq2 : CSP V Val → List (V × V))
    (pick1 pick2 : List (V × V) → Nat) (hiq1 : ValidIQ iq1) (hiq2 : ValidIQ iq2) :
    ∀ (fuel : Nat) (csp : CSP V Val), SymmNeighbors csp → NeighborsClosed csp →
      backtrackWith iq1 pick1 fuel csp = backtrackWith iq2 pick2 fuel csp := by
  intro fuel
  induction fuel with
  | zero => intro csp _ _; rfl
  | succ fuel ih =>
      intro csp hsym hcl
      unfold backtrackWith
      split
      · rfl
      · rcases hsel : select_unassigned_variable csp with _ | var
        · rfl
        · refine tryValues_congr _ _ _ _ csp var ?_ ?_ _
          · intro v
            exact AC3With_unique iq1 iq2 pick1 pick2 (collapse csp var v)
              (fun a b hb => hsym a b hb) (fun a ha b hb => hcl a ha b hb)
              hiq1 hiq2
          · intro v hv
            have hpair : AC3With iq1 pick1 (collapse csp var v) =
                (true, (AC3With iq1 pick1 (collapse csp var v)).2) := by
              rw [← hv]
            have hrun := AC3With_true hpair
            obtain ⟨hva, hna, -, -, -⟩ := ac3Run_basic pick1 _ _ _ _ hrun
            refine ih _ ?_ ?_
            · intro a b hb
              rw [hna] at hb ⊢
              exact hsym a b hb
            · intro a ha b hb
              rw [hva] at ha ⊢
              rw [hna] at hb
              exact hcl a ha b hb

/-- C7: the solve pipeline (one AC-3 pass, then — unless already decided —
MRV backtracking that re-runs AC-3 per trial) is deterministic: on the same
well-formed initial model it returns the identical outcome whatever order
the worklist arcs are processed in, at the root and inside every search
branch; and `mainSolve` is exactly the default-order instance. -/
theorem solve_order_independent (csp : CSP V Val)
    (iq1 iq2 : CSP V Val → List (V × V)) (pick1 pick2 : List (V × V) → Nat)
    (hsym : SymmNeighbors csp) (hcl : NeighborsClosed csp)
    (hiq1 : ValidIQ iq1) (hiq2 : ValidIQ iq2) :
    solveWith iq1 pick1 csp = solveWith iq2 pick2 csp ∧
      mainSolve csp = solveWith initQueue (fun _ => 0) csp := by
  refine ⟨?_, rfl⟩
  obtain ⟨hbool, hsnd⟩ := AC3With_unique iq1 iq2 pick1 pick2 csp hsym hcl
    hiq1 hiq2
  unfold solveWith
  dsimp only
  cases hb : (AC3With iq1 pick1 csp).1
  · have hb2 : (AC3With iq2 pick2 csp).1 = false := by rw [← hbool]; exact hb
    rw [if_neg (by simp), if_neg (by rw [hb2]; simp)]
  · have hb2 : (AC3With iq2 pick2 csp).1 = true := by rw [← hbool]; exact hb
    rw [if_pos rfl, if_pos hb2]
    have hc := hsnd hb
    rw [← hc]
    have hpair : AC3With iq1 pick1 csp =
        (true, (AC3With iq1 pick1 csp).2) := by rw [← hb]
    have hrun := AC3With_true hpair
    obtain ⟨hva, hna, -, -, -⟩ := ac3Run_basic pick1 _ _ _ _ hrun
    have hsym' : SymmNeighbors (AC3With iq1 pick1 csp).2 := by
      intro a b hbb
      rw [hna] at hbb ⊢
      exact hsym a b hbb
    have hcl' : NeighborsClosed (AC3With iq1 pick1 csp).2 := by
      intro a ha b hbb
      rw [hva] at ha ⊢
      rw [hna] at hbb
      exact hcl a ha b hbb
    rw [backtrackWith_congr iq1 iq2 pick1 pick2 hiq1 hiq2 _ _ hsym' hcl']

/-- Witness for C7: FIFO processing and last-index processing give the same
pipeline outcome on `toyPair`. -/
theorem solve_order_independent_witness :
    solveWith initQueue (fun _ => 0) toyPair =
      solveWith initQueue (fun q => q.length - 1) toyPair :=
  (solve_order_independent toyPair initQueue initQueue (fun _ => 0)
    (fun q => q.length - 1) (by unfold SymmNeighbors; decide)
    (by unfold NeighborsClosed; decide) validIQ_initQueue validIQ_initQueue).1

end ClaimC7

section ClaimC9

variable {V Val : Type} [LinearOrder V] [LinearOrder Val]

/-- Frame property of the trial-value loop over the store: assuming the
recursion oracle never touches pre-existing objects, the loop only ever
mutates objects it freshly allocates. -/
theorem tryValuesS_frame (next : Store V Val → Nat → Store V Val × Option Nat)
    (hnext : ∀ (σ : Store V Val) (r : Nat), σ.next ≤ (next σ r).1.next ∧
      ∀ r' < σ.next, (next σ r).1.mem r' = σ.mem r')
    (r : Nat) (var : V) :
    ∀ (vals : List Val) (σ : Store V Val),
      σ.next ≤ (tryValuesS next σ r var vals).1.next ∧
      ∀ r' < σ.next, (tryValuesS next σ r var vals).1.mem r' = σ.mem r' := by
  intro vals
  induction vals with
  | nil => intro σ; exact ⟨le_rfl, fun _ _ => rfl⟩
  | cons v vs ih =>
      intro σ
      unfold tryValuesS
      dsimp only
      have hrun_next :
          (AC3S (setDomainS (deepcopyS σ r).1 (deepcopyS σ r).2 var v)
            (deepcopyS σ r).2).2.next = σ.next + 1 := rfl
      have hmem : ∀ r' < σ.next,
          (AC3S (setDomainS (deepcopyS σ r).1 (deepcopyS σ r).2 var v)
            (deepcopyS σ r).2).2.mem r' = σ.mem r' := by
        intro r' hr'
        have hne : r' ≠ σ.next := Nat.ne_of_lt hr'
        simp [AC3S, setDomainS, deepcopyS, Function.update_noteq hne]
      split
      case isTrue hok =>
        rcases hn : next
            (AC3S (setDomainS (deepcopyS σ r).1 (deepcopyS σ r).2 var v)
              (deepcopyS σ r).2).2 (deepcopyS σ r).2 with ⟨σ4, osol⟩
        have h4 := hnext
          (AC3S (setDomainS (deepcopyS σ r).1 (deepcopyS σ r).2 var v)
            (deepcopyS σ r).2).2 (deepcopyS σ r).2
        rw [hn] at h4
        rw [hrun_next] at h4
        rcases osol with _ | sol
        · dsimp only
          obtain ⟨hle', hmem'⟩ := ih σ4
          constructor
          · exact le_trans (le_trans (Nat.le_succ _) h4.1) hle'
          · intro r' hr'
            rw [hmem' r' (lt_of_lt_of_le hr' (le_trans (Nat.le_succ _) h4.1)),
              h4.2 r' (lt_of_lt_of_le hr' (Nat.le_succ _)), hmem r' hr']
        · dsimp only
          constructor
          · exact le_trans (Nat.le_succ _) h4.1
          · intro r' hr'
            rw [h4.2 r' (lt_of_lt_of_le hr' (Nat.le_succ _)), hmem r' hr']
      case isFalse hok =>
        obtain ⟨hle', hmem'⟩ := ih
          (AC3S (setDomainS (deepcopyS σ r).1 (deepcopyS σ r).2 var v)
            (deepcopyS σ r).2).2
        constructor
        · exact le_trans (le_trans (Nat.le_succ _) (le_of_eq hrun_next.symm)) hle'
        · intro r' hr'
          rw [hmem' r' (by rw [hrun_next]; exact lt_of_lt_of_le hr' (Nat.le_succ _)),
            hmem r' hr']

/-- Frame property of the store-level `backtrack`: it never mutates any
object that existed when it was called. -/
theorem backtrackS_frame :
    ∀ (fuel : Nat) (σ : Store V Val) (r : Nat),
      σ.next ≤ (backtrackS fuel σ r).1.next ∧
      ∀ r' < σ.next, (backtrackS fuel σ r).1.mem r' = σ.mem r' := by
  intro fuel
  induction fuel with
  | zero => intro σ r; exact ⟨le_rfl, fun _ _ => rfl⟩
  | succ fuel ih =>
      intro σ r
      unfold backtrackS
      split
      · exact ⟨le_rfl, fun _ _ => rfl⟩
      · rcases hsel : select_unassigned_variable (σ.mem r) with _ | var
        · exact ⟨le_rfl, fun _ _ => rfl⟩
        · exact tryValuesS_frame (backtrackS fuel) (fun σ' r' => ih σ' r')
            r var _ σ

/-- C9: a call to `backtrack` never mutates the model passed to it.  In the
store embedding (which makes Python's object identity and in-place mutation
explicit) every trial assignment and propagation run happens on a freshly
`deepcopy`-allocated object, so after the call — in particular when it
returns `False` — every pre-existing reference, including the caller's
model, holds exactly the value (hence exactly the domains) it held at
entry. -/
theorem backtrack_no_mutation (fuel : Nat) (σ : Store V Val) (r r' : Nat)
    (h : r' < σ.next) :
    (backtrackS fuel σ r).1.mem r' = σ.mem r' ∧
      σ.next ≤ (backtrackS fuel σ r).1.next :=
  ⟨(backtrackS_frame fuel σ r).2 r' h, (backtrackS_frame fuel σ r).1⟩

/-- Witness for C9: running the store-level `backtrack` on `toyStore` leaves
the caller's object (reference 0) untouched. -/
theorem backtrack_no_mutation_witness :
    (0 : Nat) < toyStore.next ∧
      (backtrackS 3 toyStore 0).1.mem 0 = toyStore.mem 0 :=
  ⟨by decide, (backtrack_no_mutation 3 toyStore 0 0 (by decide)).1⟩

end ClaimC9

section ClaimC10

/-- C10 (code evidence): the loader accepts the multi-character token "12"
— `val in '123456789'` is Python substring containment, so the token passes
the clue test and the cell's domain becomes the two-element set `{'1','2'}`
instead of a `ValueError` being raised.  (Genuinely malformed single
characters and wrong line counts are still rejected.) -/
theorem parse_sudoku_accepts_invalid_token :
    (parse_sudoku badGrid).toOption.map (fun c => c.domains 0) =
      some {'1', '2'} ∧
    (parse_sudoku badGrid).toOption.map (fun c => (c.domains 0).card) =
      some 2 ∧
    (parse_sudoku []).toOption.isNone = true ∧
    (parse_sudoku xGrid).toOption.isNone = true ∧
    (match parse_sudoku xGrid with
      | .error e => e
      | .ok _ => "") = "Invalid character 'x' in input." := by
  refine ⟨by decide, by decide, by decide, by decide, by decide⟩

end ClaimC10

section SudokuWellFormed

theorem mem_rowNeighbors {u v : Nat} :
    u ∈ rowNeighbors v ↔ u / 9 = v / 9 ∧ u ≠ v := by
  unfold rowNeighbors
  simp only [List.mem_filter, List.mem_map, List.mem_range, decide_eq_true_eq]
  constructor
  · rintro ⟨⟨j, hj, rfl⟩, hne⟩
    exact ⟨by omega, hne⟩
  · rintro ⟨hrow, hne⟩
    exact ⟨⟨u % 9, by omega, by omega⟩, hne⟩

theorem mem_colNeighbors {u v : Nat} :
    u ∈ colNeighbors v ↔ u / 9 < 9 ∧ u % 9 = v % 9 ∧ u ≠ v := by
  unfold colNeighbors
  simp only [List.mem_filter, List.mem_map, List.mem_range, decide_eq_true_eq]
  constructor
  · rintro ⟨⟨i, hi, rfl⟩, hne⟩
    refine ⟨by omega, by omega, hne⟩
  · rintro ⟨hlt, hcol, hne⟩
    exact ⟨⟨u / 9, by omega, by omega⟩, hne⟩

theorem mem_boxNeighbors {u v : Nat} :
    u ∈ boxNeighbors v ↔
      (u / 9 / 3 = v / 9 / 3 ∧ u % 9 / 3 = v % 9 / 3) ∧ u ≠ v := by
  unfold boxNeighbors
  simp only [List.mem_filter, List.mem_flatMap, List.mem_map, List.mem_range,
    decide_eq_true_eq]
  constructor
  · rintro ⟨⟨a, ha, b, hb, rfl⟩, hne⟩
    refine ⟨⟨?_, ?_⟩, hne⟩ <;> omega
  · rintro ⟨⟨hbr, hbc⟩, hne⟩
    refine ⟨⟨u / 9 % 3, by omega, u % 9 % 3, by omega, by omega⟩, hne⟩

theorem mem_sudokuNeighbors {u v : Nat} :
    u ∈ sudokuNeighbors v ↔
      v < 81 ∧
      (u / 9 = v / 9 ∨ (u / 9 < 9 ∧ u % 9 = v % 9) ∨
        (u / 9 / 3 = v / 9 / 3 ∧ u % 9 / 3 = v % 9 / 3)) ∧ u ≠ v := by
  unfold sudokuNeighbors
  split
  case isTrue hv =>
    simp only [List.mem_toFinset, List.mem_append, mem_rowNeighbors,
      mem_colNeighbors, mem_boxNeighbors]
    constructor
    · rintro ((⟨h1, hne⟩ | ⟨h1, h2, hne⟩) | ⟨h1, hne⟩)
      · exact ⟨hv, Or.inl h1, hne⟩
      · exact ⟨hv, Or.inr (Or.inl ⟨h1, h2⟩), hne⟩
      · exact ⟨hv, Or.inr (Or.inr h1), hne⟩
    · rintro ⟨-, h1 | ⟨h1, h2⟩ | h1, hne⟩
      · exact Or.inl (Or.inl ⟨h1, hne⟩)
      · exact Or.inl (Or.inr ⟨h1, h2, hne⟩)
      · exact Or.inr ⟨h1, hne⟩
  case isFalse hv =>
    simp only [Finset.not_mem_empty, false_iff]
    rintro ⟨h81, -, -⟩
    exact hv h81

/-- Membership in the Sudoku neighbor relation forces both cells into the
grid. -/
theorem mem_sudokuNeighbors_lt {u v : Nat} (h : u ∈ sudokuNeighbors v) :
    u < 81 ∧ v < 81 := by
  rw [mem_sudokuNeighbors] at h
  obtain ⟨hv, hgrp, -⟩ := h
  refine ⟨?_, hv⟩
  rcases hgrp with h1 | ⟨h1, -⟩ | ⟨h1, h2⟩ <;> omega

/-- The Sudoku neighbor relation built by `parse_sudoku` is symmetric. -/
theorem sudokuNeighbors_symm (a b : Nat) (h : b ∈ sudokuNeighbors a) :
    a ∈ sudokuNeighbors b := by
  obtain ⟨hb81, ha81⟩ := mem_sudokuNeighbors_lt h
  rw [mem_sudokuNeighbors] at h ⊢
  obtain ⟨-, hgrp, hne⟩ := h
  refine ⟨hb81, ?_, hne.symm⟩
  rcases hgrp with h1 | ⟨h1, h2⟩ | ⟨h1, h2⟩
  · exact Or.inl h1.symm
  · exact Or.inr (Or.inl ⟨by omega, h2.symm⟩)
  · exact Or.inr (Or.inr ⟨h1.symm, h2.symm⟩)

/-- Sudoku neighbors of a cell are cells. -/
theorem sudokuNeighbors_closed (a : Nat) (_ha : a ∈ sudokuVars)
    (b : Nat) (hb : b ∈ sudokuNeighbors a) : b ∈ sudokuVars := by
  unfold sudokuVars
  rw [List.mem_range]
  exact (mem_sudokuNeighbors_lt hb).1

/-- Every model `parse_sudoku` hands to the solver is well-formed in the
sense assumed by the AC-3 theorems above: its neighbor relation is symmetric
and closed over its variable list. -/
theorem parse_sudoku_wellformed (lines : List (List String)) (c : CSP Nat Char)
    (h : parse_sudoku lines = .ok c) :
    SymmNeighbors c ∧ NeighborsClosed c ∧ c.variables = sudokuVars := by
  unfold parse_sudoku at h
  split at h
  · cases h
  · split at h
    · cases h
    · cases h
      refine ⟨?_, ?_, rfl⟩
      · intro a b hb
        exact sudokuNeighbors_symm a b hb
      · intro a ha b hb
        exact sudokuNeighbors_closed a ha b hb

end SudokuWellFormed

section StoreSimulation

variable {V Val : Type} [LinearOrder V] [LinearOrder Val]

theorem tryValues_cons (ac3fn : CSP V Val → Bool × CSP V Val)
    (nextP : CSP V Val → Option (CSP V Val)) (csp : CSP V Val) (var : V)
    (v : Val) (vs : List Val) :
    tryValues ac3fn nextP csp var (v :: vs) =
      if (ac3fn (collapse csp var v)).1 = true then
        match nextP (ac3fn (collapse csp var v)).2 with
        | some sol => some sol
        | none => tryValues ac3fn nextP csp var vs
      else tryValues ac3fn nextP csp var vs := rfl

theorem tryValuesS_cons (next : Store V Val → Nat → Store V Val × Option Nat)
    (σ : Store V Val) (r : Nat) (var : V) (v : Val) (vs : List Val) :
    tryValuesS next σ r var (v :: vs) =
      if (AC3S (setDomainS (deepcopyS σ r).1 (deepcopyS σ r).2 var v)
          (deepcopyS σ r).2).1 = true then
        match next (AC3S (setDomainS (deepcopyS σ r).1 (deepcopyS σ r).2 var v)
            (deepcopyS σ r).2).2 (deepcopyS σ r).2 with
        | (σ4, some sol) => (σ4, some sol)
        | (σ4, none) => tryValuesS next σ4 r var vs
      else
        tryValuesS next
          (AC3S (setDomainS (deepcopyS σ r).1 (deepcopyS σ r).2 var v)
            (deepcopyS σ r).2).2 r var vs := rfl

/-- The store-level trial loop simulates the value-level one: it fails
exactly when the pure loop fails, and a returned reference holds exactly the
model the pure loop returns. -/
theorem tryValuesS_sim (next : Store V Val → Nat → Store V Val × Option Nat)
    (nextP : CSP V Val → Option (CSP V Val))
    (hframe : ∀ (σ : Store V Val) (r : Nat), σ.next ≤ (next σ r).1.next ∧
      ∀ r' < σ.next, (next σ r).1.mem r' = σ.mem r')
    (hsim : ∀ (σ : Store V Val) (r : Nat), r < σ.next →
      ((next σ r).2 = none → nextP (σ.mem r) = none) ∧
      (∀ i, (next σ r).2 = some i →
        ∃ m, nextP (σ.mem r) = some m ∧ (next σ r).1.mem i = m))
    (var : V) :
    ∀ (vals : List Val) (σ : Store V Val) (r : Nat), r < σ.next →
      ((tryValuesS next σ r var vals).2 = none →
        tryValues (AC3With initQueue (fun _ => 0)) nextP (σ.mem r) var vals =
          none) ∧
      (∀ i, (tryValuesS next σ r var vals).2 = some i →
        ∃ m, tryValues (AC3With initQueue (fun _ => 0)) nextP (σ.mem r) var
            vals = some m ∧
          (tryValuesS next σ r var vals).1.mem i = m) := by
  intro vals
  induction vals with
  | nil =>
      intro σ r hr
      exact ⟨fun _ => rfl, fun i hi => by cases hi⟩
  | cons v vs ih =>
      intro σ r hr
      have hneq : r ≠ σ.next := Nat.ne_of_lt hr
      have hflag :
          (AC3S (setDomainS (deepcopyS σ r).1 (deepcopyS σ r).2 var v)
            (deepcopyS σ r).2).1 =
          (AC3With initQueue (fun _ => 0) (collapse (σ.mem r) var v)).1 := by
        simp [AC3S, setDomainS, deepcopyS, Function.update_same, AC3]
      have hmemclone :
          (AC3S (setDomainS (deepcopyS σ r).1 (deepcopyS σ r).2 var v)
            (deepcopyS σ r).2).2.mem (deepcopyS σ r).2 =
          (AC3With initQueue (fun _ => 0) (collapse (σ.mem r) var v)).2 := by
        simp [AC3S, setDomainS, deepcopyS, Function.update_same, AC3]
      have hnext' :
          (AC3S (setDomainS (deepcopyS σ r).1 (deepcopyS σ r).2 var v)
            (deepcopyS σ r).2).2.next = σ.next + 1 := rfl
      have hmemr :
          (AC3S (setDomainS (deepcopyS σ r).1 (deepcopyS σ r).2 var v)
            (deepcopyS σ r).2).2.mem r = σ.mem r := by
        simp [AC3S, setDomainS, deepcopyS, Function.update_noteq hneq]
      rw [tryValuesS_cons, tryValues_cons, hflag]
      by_cases hcond :
          (AC3With initQueue (fun _ => 0) (collapse (σ.mem r) var v)).1 = true
      · rw [if_pos hcond, if_pos hcond]
        have hs := hsim
          (AC3S (setDomainS (deepcopyS σ r).1 (deepcopyS σ r).2 var v)
            (deepcopyS σ r).2).2 (deepcopyS σ r).2
          (by rw [hnext']; exact Nat.lt_succ_self _)
        have h4 := hframe
          (AC3S (setDomainS (deepcopyS σ r).1 (deepcopyS σ r).2 var v)
            (deepcopyS σ r).2).2 (deepcopyS σ r).2
        rcases hnres : next
            (AC3S (setDomainS (deepcopyS σ r).1 (deepcopyS σ r).2 var v)
              (deepcopyS σ r).2).2 (deepcopyS σ r).2 with ⟨σ4, osol⟩
        rw [hnres, hmemclone] at hs
        rw [hnres] at h4
        dsimp only at hs h4
        rcases osol with _ | sol
        · dsimp only
          have hnone := hs.1 rfl
          rw [hnone]
          have hr4 : r < σ4.next := by
            have := h4.1
            rw [hnext'] at this
            omega
          have hmem4 : σ4.mem r = σ.mem r := by
            rw [h4.2 r (by rw [hnext']; omega), hmemr]
          have hrec := ih σ4 r hr4
          rw [hmem4] at hrec
          exact hrec
        · dsimp only
          constructor
          · intro h0; cases h0
          · intro i hi
            cases hi
            obtain ⟨m, hm1, hm2⟩ := hs.2 sol rfl
            rw [hm1]
            exact ⟨m, rfl, hm2⟩
      · rw [if_neg hcond, if_neg hcond]
        have hrec := ih
          (AC3S (setDomainS (deepcopyS σ r).1 (deepcopyS σ r).2 var v)
            (deepcopyS σ r).2).2 r (by rw [hnext']; omega)
        rw [hmemr] at hrec
        exact hrec

/-- The store-level `backtrack` simulates the value-level `backtrack`:
failure coincides, and a returned reference holds exactly the model the pure
function returns. -/
theorem backtrackS_sim :
    ∀ (fuel : Nat) (σ : Store V Val) (r : Nat), r < σ.next →
      ((backtrackS fuel σ r).2 = none →
        backtrackWith initQueue (fun _ => 0) fuel (σ.mem r) = none) ∧
      (∀ i, (backtrackS fuel σ r).2 = some i →
        ∃ m, backtrackWith initQueue (fun _ => 0) fuel (σ.mem r) = some m ∧
          (backtrackS fuel σ r).1.mem i = m) := by
  intro fuel
  induction fuel with
  | zero => intro σ r hr; exact ⟨fun _ => rfl, fun i hi => by cases hi⟩
  | succ fuel ih =>
      intro σ r hr
      cases hsolved : is_solved (σ.mem r)
      · rcases hsel : select_unassigned_variable (σ.mem r) with _ | var
        · constructor
          · intro _
            unfold backtrackWith
            rw [if_neg (by simp [hsolved]), hsel]
          · intro i hi
            exfalso
            unfold backtrackS at hi
            rw [if_neg (by simp [hsolved]), hsel] at hi
            cases hi
        · have hsim0 := tryValuesS_sim (backtrackS fuel)
            (backtrackWith initQueue (fun _ => 0) fuel)
            (backtrackS_frame fuel) (fun σ' r' hr' => ih σ' r' hr') var
            (finsetAsc ((σ.mem r).domains var)) σ r hr
          constructor
          · intro h0
            unfold backtrackWith
            rw [if_neg (by simp [hsolved]), hsel]
            apply hsim0.1
            unfold backtrackS at h0
            rw [if_neg (by simp [hsolved]), hsel] at h0
            exact h0
          · intro i hi
            unfold backtrackS at hi
            rw [if_neg (by simp [hsolved]), hsel] at hi
            obtain ⟨m, hm1, hm2⟩ := hsim0.2 i hi
            refine ⟨m, ?_, ?_⟩
            · unfold backtrackWith
              rw [if_neg (by simp [hsolved]), hsel]
              exact hm1
            · unfold backtrackS
              rw [if_neg (by simp [hsolved]), hsel]
              exact hm2
      · have hstep : backtrackS (fuel + 1) σ r = (σ, some r) := by
          unfold backtrackS
          rw [if_pos hsolved]
        constructor
        · intro h0
          rw [hstep] at h0
          cases h0
        · intro i hi
          rw [hstep] at hi ⊢
          cases hi
          refine ⟨σ.mem r, ?_, rfl⟩
          unfold backtrackWith
          rw [if_pos hsolved]

/-- Running `backtrackS` with `backtrack`'s fuel agrees with `backtrack` itself on
the model the caller's reference holds. -/
theorem backtrackS_eq_backtrack (σ : Store V Val) (r : Nat) (hr : r < σ.next) :
    ((backtrackS (totalSize (σ.mem r) + 1) σ r).2 = none ↔
      backtrack (σ.mem r) = none) ∧
    (∀ i, (backtrackS (totalSize (σ.mem r) + 1) σ r).2 = some i →
      backtrack (σ.mem r) =
        some ((backtrackS (totalSize (σ.mem r) + 1) σ r).1.mem i)) := by
  have hunfold : backtrack (σ.mem r) =
      backtrackWith initQueue (fun _ => 0) (totalSize (σ.mem r) + 1)
        (σ.mem r) := rfl
  rw [hunfold]
  constructor
  · constructor
    · exact (backtrackS_sim _ σ r hr).1
    · intro hp
      rcases hres : (backtrackS (totalSize (σ.mem r) + 1) σ r).2 with _ | i
      · rfl
      · obtain ⟨m, hm1, -⟩ := (backtrackS_sim _ σ r hr).2 i hres
        rw [hp] at hm1
        cases hm1
  · intro i hi
    obtain ⟨m, hm1, hm2⟩ := (backtrackS_sim _ σ r hr).2 i hi
    rw [hm1, hm2]

end StoreSimulation
